import Mathlib

/-!
Verification of the Especia absorption-line inverse-modelling code.

Shallow embedding of the profile functions (profiles.h / profiles.cxx),
the bounded constraint (optimizer.h / model.h), the Mersenne twister
generators (random.h and the legacy mtwister.h), the symmetric
eigendecomposition driver (decompose.cxx) and the model parser
(model.h), together with theorems settling the specification claims.
-/

namespace Especia

/-! ## Physical constants and basic functions (base.h, profiles.cxx) -/

/-- The speed of light in vacuum (km s⁻¹), `especia::speed_of_light`. -/
def speed_of_light : ℝ := 299792.458

/-- Modelled from the spec: the constant `micro` (= 10⁻⁶) of the base header;
the header revision defining it is not among the provided sources.  The spec
states μ = Δα/α × 10⁻⁶ for a Δα/α given in parts per 10⁶. -/
def micro : ℝ := 1e-6

/-- Modelled from the spec: the elementary charge (C); the base header
revision defining it is not among the provided sources.  Named by the spec in
the amplitude coefficient 10⁻⁶ e²/(4ε₀ mₑ c²). -/
def elementary_charge : ℝ := 1.602176634e-19

/-- Modelled from the spec: the electron mass (kg); the base header revision
defining it is not among the provided sources. -/
def electron_mass : ℝ := 9.1093837015e-31

/-- Modelled from the spec: the electric constant ε₀ (F m⁻¹); the base header
revision defining it is not among the provided sources. -/
def electric_constant : ℝ := 8.8541878128e-12

/-- The square of a number, `especia::sqr` (base.h):
`(x == number(0)) ? number(0) : x * x`. -/
noncomputable def sqr (x : ℝ) : ℝ := if x = 0 then 0 else x * x

/-- The square root of π used by the Gaussian, `sqrt_of_pi` (base.h). -/
def sqrt_of_pi : ℝ := 1.7724538509055160272981674833411451827975

/-- The Gaussian `f_g` (profiles.cxx):
`(1.0 / (sqrt_of_pi * gamma)) * exp(-sqr(x / gamma))`. -/
noncomputable def f_g (x gamma : ℝ) : ℝ :=
  (1 / (sqrt_of_pi * gamma)) * Real.exp (-(sqr (x / gamma)))

/-- Support truncation of a profile function, `especia::truncate`
(profiles.h): `abs(x) < c * b ? f(x, b) : 0.0`. -/
noncomputable def truncate (f : ℝ → ℝ → ℝ) (x b c : ℝ) : ℝ :=
  if |x| < c * b then f x b else 0

/-! ## The Doppler profile `G_Doppler` (profiles.cxx)

The class holds the derived quantities computed by its constructor: the
central wavelength `c`, the Doppler width `b` and the amplitude `a`. -/

/-- The derived state of a `G_Doppler` profile. -/
structure GDoppler where
  c : ℝ
  b : ℝ
  a : ℝ

/-- `G_Doppler::C0 = 1.0E-03 * speed_of_light`. -/
noncomputable def GDoppler.c0 : ℝ := 1.0e-3 * speed_of_light

/-- `G_Doppler::C1 = 1.0E-06 * sqr(elementary_charge) /
(4.0 * electric_constant * electron_mass * sqr(speed_of_light))`. -/
noncomputable def GDoppler.c1 : ℝ :=
  1.0e-6 * sqr elementary_charge /
    (4.0 * electric_constant * electron_mass * sqr speed_of_light)

/-- The `G_Doppler` constructor (profiles.cxx): given the parameter slice `q`,
`c = q[0] * (1 + q[2]) * (1 + q[3] / C0)`, `b = q[4] * c / C0`,
`a = C1 * q[1] * pow(10, q[5]) * (q[0] * c)`. -/
noncomputable def GDoppler.ofSlice (q : ℕ → ℝ) : GDoppler :=
  let c := q 0 * (1 + q 2) * (1 + q 3 / GDoppler.c0)
  let b := q 4 * c / GDoppler.c0
  let a := GDoppler.c1 * q 1 * Real.rpow 10 (q 5) * (q 0 * c)
  ⟨c, b, a⟩

/-- `G_Doppler::operator()` (profiles.cxx):
`a * truncate(f_g, x - c, b, 4.0)`. -/
noncomputable def GDoppler.eval (p : GDoppler) (x : ℝ) : ℝ :=
  p.a * truncate f_g (x - p.c) p.b 4.0

/-! ## The many-multiplet Doppler profile `A_Doppler` (profiles.cxx) -/

/-- The derived state of an `A_Doppler` (many-multiplet) profile: the
modified rest wavelength `u`, the central wavelength `c`, the Doppler width
`b` and the amplitude `a`. -/
structure ADoppler where
  u : ℝ
  c : ℝ
  b : ℝ
  a : ℝ

/-- The modified rest wavelength computed by the `A_Doppler` constructor
(profiles.cxx):
`u = 1.0E+08 / (1.0E+08 / q[0] + q[6] * (q[7] * micro) * (q[7] * micro + 2.0))`. -/
noncomputable def ADoppler.uOf (q : ℕ → ℝ) : ℝ :=
  1.0e8 / (1.0e8 / q 0 + q 6 * (q 7 * micro) * (q 7 * micro + 2.0))

/-- The `A_Doppler` constructor (profiles.cxx); the remaining members are
`c = u * (1 + q[2]) * (1 + q[3] / C0)`, `b = q[4] * c / C0`,
`a = C1 * q[1] * pow(10, q[5]) * (u * c)`. -/
noncomputable def ADoppler.ofSlice (q : ℕ → ℝ) : ADoppler :=
  let u := ADoppler.uOf q
  let c := u * (1 + q 2) * (1 + q 3 / GDoppler.c0)
  let b := q 4 * c / GDoppler.c0
  let a := GDoppler.c1 * q 1 * Real.rpow 10 (q 5) * (u * c)
  ⟨u, c, b, a⟩

/-- The formula for the adjusted rest wavelength exactly as the specification
words it: λ = 1 / (1/λ₀ + q·(μ² + 2μ)·10⁻⁶) with μ = Δα/α × 10⁻⁶.  Stated
for comparison with `ADoppler.uOf`, which is translated from the source. -/
noncomputable def ADoppler.uSpec (q : ℕ → ℝ) : ℝ :=
  1 / (1 / q 0 + q 6 * ((q 7 * 1e-6) ^ 2 + 2 * (q 7 * 1e-6)) * 1e-6)

/-! ## The bounded constraint (optimizer.h, model.h)

`Bounded_Constraint<T>` holds copies of the first `n` lower and upper
bounds; `is_violated` scans the components, `cost` returns `T(0)`. -/

/-- The state of a `Bounded_Constraint`: the bound arrays `a` and `b`. -/
structure BoundedConstraint (T : Type) where
  a : List T
  b : List T

/-- The `Bounded_Constraint` constructor: `a(lower_bounds, n)` and
`b(upper_bounds, n)` copy the first `n` elements of each array. -/
def BoundedConstraint.ofBounds {T : Type} (lower upper : List T) (n : ℕ) :
    BoundedConstraint T :=
  ⟨lower.take n, upper.take n⟩

/-- `Bounded_Constraint::is_violated` (optimizer.h, model.h): scans
`i = 0, …, n-1` and reports `true` on the first component with
`x[i] < a[i] || x[i] > b[i]`. -/
def BoundedConstraint.isViolated {T : Type} [LinearOrder T] [Inhabited T]
    (cst : BoundedConstraint T) (x : List T) (n : ℕ) : Bool :=
  (List.range n).any fun i =>
    decide (x.getD i default < cst.a.getD i default) ||
      decide (cst.b.getD i default < x.getD i default)

/-- `Bounded_Constraint::cost` (optimizer.h, model.h): returns `T(0)` for
every argument. -/
def BoundedConstraint.cost {T : Type} [Zero T]
    (_cst : BoundedConstraint T) (_x : List T) (_n : ℕ) : T :=
  0

/-! ## The Mersenne twister generators (random.h and the legacy mtwister.h)

The C++ code keeps the generator state in a `valarray` of `n = 624` words of
`w = 32` bits.  The embedding packs that array into a single natural number
in base 2³², digit `i` of the number being word `i` of the array; `getw` and
`setw` below are array read and write under this encoding.  All word
arithmetic is done on ℕ and masked to 32 bits exactly where the C++ masks
(`& 0xFFFFFFFF`); where C++ relies on 64-bit wrap-around before the mask,
low 32 bits agree, so operating on ℕ and masking is faithful.

`forceNat` is the identity function (proved by `forceNat_eq`); it is written
as a match so that kernel reduction evaluates each intermediate state to a
numeral instead of accumulating closures.  It carries no semantic content. -/

/-- Identity on the first argument's consumer, written as a match to force
reduction of intermediate states; `forceNat_eq` proves it is `f s`. -/
def forceNat {A : Type} (s : ℕ) (f : ℕ → A) : A :=
  match s with
  | 0 => f 0
  | s' + 1 => f (s' + 1)


/-- Read word `i` of the packed state: `state[i]`. -/
def getw (s i : ℕ) : ℕ := (s >>> (32 * i)) &&& 0xFFFFFFFF

/-- Write word `i` of the packed state: `state[i] = v`. -/
def setw (s i v : ℕ) : ℕ := s + (v <<< (32 * i)) - (getw s i <<< (32 * i))

/-- The Knuth-LCG seeding loop common to `mersenne_twister::reset(seed,
multiplier)` (mtwister.h) and `Mersenne_Twister::reset(seed)` (random.h):
`state[k] = (mult * (state[k-1] ^ (state[k-1] >> 30)) + k) & 0xFFFFFFFF`
for `k = 1, …, 623`.  `prev` is `state[k-1]`, `c` counts the remaining
iterations, `s` accumulates the filled state. -/
def mtExpand (mult : ℕ) : ℕ → ℕ → ℕ → ℕ → ℕ
  | 0, _, _, s => s
  | c+1, prev, k, s =>
    let w := (mult * (prev ^^^ (prev >>> 30)) + k) &&& 0xFFFFFFFF
    forceNat (s ||| (w <<< (32 * k))) (fun s' => mtExpand mult c w (k+1) s')

/-- Single-seed state reset: `state[0] = seed & 0xFFFFFFFF` followed by the
Knuth-LCG expansion of the remaining 623 words. -/
def mtReset1 (seed mult : ℕ) : ℕ :=
  mtExpand mult 623 (seed &&& 0xFFFFFFFF) 1 (seed &&& 0xFFFFFFFF)

/-- 32-bit wrap-around subtraction `(x - i) mod 2³²`, the meaning of the
unsigned C++ expression `(x - i) & 0xFFFFFFFF`. -/
def sub32 (x i : ℕ) : ℕ := (x % 0x100000000 + 0x100000000 - i) % 0x100000000

/-- First mixing loop of `Mersenne_Twister::reset(seed_count, seeds)`
(random.h): `k = max(n, seed_count)` down to 1, with
`state[i] = ((state[i] ^ ((state[i-1] ^ (state[i-1] >> 30)) * 1664525)) +
seeds[j] + j) & 0xFFFFFFFF`, wrapping `i` through `state[0] = state[n-1]`
and cycling `j` through the seeds. -/
def mix1 (seeds : List ℕ) (sc : ℕ) : ℕ → ℕ → ℕ → ℕ → (ℕ × ℕ)
  | 0, s, i, _ => (s, i)
  | c+1, s, i, j =>
    let v := ((getw s i ^^^ ((getw s (i-1) ^^^ (getw s (i-1) >>> 30)) * 1664525)) +
              seeds.getD j 0 + j) &&& 0xFFFFFFFF
    let s1 := setw s i v
    let i1 := i + 1
    let s2 := if 624 ≤ i1 then setw s1 0 (getw s1 623) else s1
    let i2 := if 624 ≤ i1 then 1 else i1
    let j1 := if sc ≤ j + 1 then 0 else j + 1
    forceNat s2 (fun s' => mix1 seeds sc c s' i2 j1)

/-- Second mixing loop of `Mersenne_Twister::reset(seed_count, seeds)`
(random.h): `k = n-1` down to 1, with
`state[i] = ((state[i] ^ ((state[i-1] ^ (state[i-1] >> 30)) * 1566083941))
- i) & 0xFFFFFFFF`, wrapping `i` as in the first loop. -/
def mix2 : ℕ → ℕ → ℕ → (ℕ × ℕ)
  | 0, s, i => (s, i)
  | c+1, s, i =>
    let v := sub32 (getw s i ^^^ ((getw s (i-1) ^^^ (getw s (i-1) >>> 30)) * 1566083941)) i
    let s1 := setw s i v
    let i1 := i + 1
    let s2 := if 624 ≤ i1 then setw s1 0 (getw s1 623) else s1
    let i2 := if 624 ≤ i1 then 1 else i1
    forceNat s2 (fun s' => mix2 c s' i2)

/-- `Mersenne_Twister::reset(seed_count, seeds)` (random.h): reset from
19650218, the two mixing loops, then `state[0] = 1 << 31`. -/
def mtResetArray (sc : ℕ) (seeds : List ℕ) : ℕ :=
  let p := mix1 seeds sc (max 624 sc) (mtReset1 19650218 1812433253) 1 0
  let q := mix2 623 p.1 p.2
  setw q.1 0 0x80000000

/-- The in-place twist `twist(i, j, k)` shared by both generator classes:
`state[j] = state[i] ^ (((state[j] & 0x80000000) | (state[k] & 0x7FFFFFFF))
>> 1)`, then `state[j] ^= 0x9908B0DF` when `state[k]` is odd.  The two mask
constants are the values of the `numeric_limits` shift expressions at
`w = 32`, `r = 31`. -/
def mtTwistAt (s i j k : ℕ) : ℕ :=
  let y := ((getw s j &&& 0x80000000) ||| (getw s k &&& 0x7FFFFFFF)) >>> 1
  let v := getw s i ^^^ y
  let v := if getw s k &&& 1 = 1 then v ^^^ 0x9908B0DF else v
  setw s j v

/-- First regeneration loop of `rand()`: `twist(k + m, k, k + 1)` for
`k = 0, …, n - m - 1` (that is 227 iterations with `m = 397`). -/
def mtTwistA : ℕ → ℕ → ℕ → ℕ
  | 0, _, s => s
  | c+1, k, s => forceNat (mtTwistAt s (k+397) k (k+1)) (fun s' => mtTwistA c (k+1) s')

/-- Second regeneration loop of `rand()`: `twist(k + m - n, k, k + 1)` for
`k = n - m, …, n - 2` (396 iterations). -/
def mtTwistB : ℕ → ℕ → ℕ → ℕ
  | 0, _, s => s
  | c+1, k, s => forceNat (mtTwistAt s (k-227) k (k+1)) (fun s' => mtTwistB c (k+1) s')

/-- The full state regeneration performed by `rand()` when `index == n`:
both loops followed by `twist(m - 1, n - 1, 0)`. -/
def mtRegenerate (s : ℕ) : ℕ :=
  mtTwistAt (mtTwistB 396 227 (mtTwistA 227 0 s)) 396 623 0

/-- The tempering of `Mersenne_Twister::rand()` (random.h) at the MT19937-32
parameters: `y ^= (y >> 11) & 0xFFFFFFFF; y ^= (y << 7) & 0x9D2C5680;
y ^= (y << 15) & 0xEFC60000; y ^= y >> 18`. -/
def mtTemperNew (y0 : ℕ) : ℕ :=
  let y1 := y0 ^^^ ((y0 >>> 11) &&& 0xFFFFFFFF)
  let y2 := y1 ^^^ ((y1 <<< 7) &&& 0x9D2C5680)
  let y3 := y2 ^^^ ((y2 <<< 15) &&& 0xEFC60000)
  y3 ^^^ (y3 >>> 18)

/-- The tempering of the legacy `mersenne_twister::rand()` (mtwister.h) at
the mt19937 parameters: `y ^= y >> 11` (no mask parameter in this class),
then the same three steps. -/
def mtTemperOld (y0 : ℕ) : ℕ :=
  let y1 := y0 ^^^ (y0 >>> 11)
  let y2 := y1 ^^^ ((y1 <<< 7) &&& 0x9D2C5680)
  let y3 := y2 ^^^ ((y2 <<< 15) &&& 0xEFC60000)
  y3 ^^^ (y3 >>> 18)

/-- The mutable state of either generator: the word array and the running
index `i` (named `index` in random.h). -/
structure MtState where
  words : ℕ
  idx : ℕ

/-- `Mersenne_Twister::rand()` (random.h): regenerate when `index == n`,
then temper `state[index++]`. -/
def mtRandNew (st : MtState) : ℕ × MtState :=
  let p := if st.idx = 624 then (mtRegenerate st.words, 0) else (st.words, st.idx)
  (mtTemperNew (getw p.1 p.2), ⟨p.1, p.2 + 1⟩)

/-- The first `k` outputs of `rand()` (random.h) from a given state. -/
def mtOutputsNew (st : MtState) : ℕ → List ℕ
  | 0 => []
  | k+1 =>
    let r := mtRandNew st
    r.1 :: mtOutputsNew r.2 k

/-- The single-seed constructor of `Mersenne_Twister` (random.h): it calls
`reset(2, seeds)` with `seeds = {seed & 0xFFFFFFFF, seed &
0xFFFFFFFF00000000}` and leaves `index = n`. -/
def mtInitNew (seed : ℕ) : MtState :=
  ⟨mtResetArray 2 [seed &&& 0xFFFFFFFF, seed &&& 0xFFFFFFFF00000000], 624⟩

/-- The legacy `mersenne_twister::rand()` (mtwister.h): identical loop
structure, legacy tempering. -/
def mtRandOld (st : MtState) : ℕ × MtState :=
  let p := if st.idx = 624 then (mtRegenerate st.words, 0) else (st.words, st.idx)
  (mtTemperOld (getw p.1 p.2), ⟨p.1, p.2 + 1⟩)

/-- The first `k` outputs of the legacy `rand()` (mtwister.h). -/
def mtOutputsOld (st : MtState) : ℕ → List ℕ
  | 0 => []
  | k+1 =>
    let r := mtRandOld st
    r.1 :: mtOutputsOld r.2 k

/-- The legacy single-seed constructor (mtwister.h): the Knuth-LCG reset
with the default multiplier 1812433253, leaving `i = n`. -/
def mtInitOld (seed : ℕ) : MtState := ⟨mtReset1 seed 1812433253, 624⟩

/-- The first `k` outputs of `Mersenne_Twister::operator()` (random.h): at
`w = 32` it returns `rand() * (1.0 / max_mantissa)` with
`max_mantissa = 2³² - 1`. -/
noncomputable def mtRealOutputsNew (st : MtState) (k : ℕ) : List ℝ :=
  (mtOutputsNew st k).map fun y => (y : ℝ) * (1 / ((4294967295 : ℕ) : ℝ))

/-- The first ten values of the published MT19937-32 reference sequence for
the single seed 5489 (Matsumoto and Nishimura's 2002 code). -/
def mt19937RefSeq : List ℕ :=
  [3499211612, 581869302, 3890346734, 3586334585, 545404204,
   4161255391, 3922919429, 949333985, 2715962298, 1323567403]

/-! ## The symmetric eigendecomposition driver (decompose.h / decompose.cxx)

`R_Decompose::operator()` copies the matrix, calls the LAPACK routine
`dsyevr` (job 'V', range 'A', so all eigenpairs), and dispatches on the
returned `info`: zero means success (the eigenvectors are transposed and the
call returns normally), positive means an internal error (`runtime_error`),
negative an illegal argument (`invalid_argument`).  The LAPACK routine
itself is an external library, not part of this repository; its `info`
contract is modelled from the spec below. -/

/-- The observable outcome of a decomposition driver call.  On success the
driver returns normally having stored `eigenCount` eigenvalue/eigenvector
pairs (range 'A': all of them). -/
inductive DecomposeOutcome
| success (eigenCount : ℕ)
| internalSolverError
| invalidArgumentError
deriving DecidableEq

/-- Modelled from the spec: the `info` result of the external LAPACK routine
`dsyevr`, which is not part of this repository.  Per the spec contract
(§4.B), the call reports an illegal argument (negative `info`) when the
dimension is not positive or the matrix holds non-finite entries, reports an
internal error (positive `info`) when the eigensolver does not converge, and
returns `info = 0` with all `n` eigenpairs otherwise.  `allFinite` states
that every entry of the input matrix is finite, `converges` that the
eigensolver converges. -/
def syevrInfo (n : ℤ) (allFinite : Bool) (converges : Bool) : ℤ :=
  if n ≤ 0 then -1
  else if allFinite = false then -1
  else if converges = false then 1
  else 0

/-- `R_Decompose::operator()` (decompose.cxx): dispatch on the `info` value
returned by `dsyevr`; `info == 0` returns normally with all `n` eigenpairs,
`info > 0` throws `runtime_error` (internal error in LAPACK), `info < 0`
throws `invalid_argument` (illegal argument in call to LAPACK). -/
def rDecompose (n : ℤ) (allFinite : Bool) (converges : Bool) : DecomposeOutcome :=
  let info := syevrInfo n allFinite converges
  if info = 0 then .success n.toNat
  else if 0 < info then .internalSolverError
  else .invalidArgumentError

/-! ## The model (model.h)

`Model<Profile>::get` parses a model definition into local vectors, indexes
the independent parameters, dereferences the parameter links and only then
copies the results into the member state; every error path sets the
stream's fail state and returns before that copy.

The embedding works on a tokenized model definition: the input is the list
of `}`-delimited chunks, each either lacking a `{` (syntax error), failing
the section-head parse, or carrying the parsed head and parameter
specifications.  The character-level lexing (readline.h, stream
extraction) is abstracted into this token form; the identifiers are opaque
tokens (ℕ) ordered like the `std::map` keys, and the numeric fields are
rationals.  `Section::get` (section.h, not among the provided sources) is
represented by the `dataOk` flag of a block. -/

/-- One parameter specification `value lo up mask_flag [ref]` (model input
format); `ref = none` when the optional reference is absent. -/
structure PSpec where
  val : ℚ
  lo : ℚ
  up : ℚ
  msk : Bool
  ref : Option ℕ
deriving DecidableEq

/-- The tokenized body of a section chunk whose head parsed: the section id,
the Legendre order `p`, whether the data file opened (`fileOk`), whether
`Section::get` succeeded (`dataOk`), the resolution parameter specification
(`none` when its read fails) and the line list: pairs of a line id and the
profile parameter specifications (`none` when their read fails). -/
structure BlockBody where
  sid : ℕ
  p : ℕ
  fileOk : Bool
  dataOk : Bool
  res : Option PSpec
  lines : List (ℕ × Option (List PSpec))
deriving DecidableEq

/-- A tokenized `}`-delimited chunk of the model definition. -/
inductive Block
| noBrace
| headBad
| body (b : BlockBody)
deriving DecidableEq

/-- Lookup in a `std::map` modelled as an association list sorted by key. -/
def alFind : List (ℕ × ℕ) → ℕ → Option ℕ
  | [], _ => none
  | (k, v) :: t, key => if key = k then some v else alFind t key

/-- Insertion into a `std::map` modelled as an association list sorted by
key; iteration order over the list is the map's key order. -/
def alInsert : List (ℕ × ℕ) → ℕ → ℕ → List (ℕ × ℕ)
  | [], key, v => [(key, v)]
  | (k, w) :: t, key, v =>
    if key < k then (key, v) :: (k, w) :: t else (k, w) :: alInsert t key v

/-- The local state accumulated by the parsing loop of `Model::get`: the
sections (their payload abstracted to the section id), the index `isc` of
each section's resolution parameter, the Legendre orders `nle`, the line
counts `nli`, the parameter table columns `val`, `lo`, `up`, `msk`, `ref`,
the id maps `sim` and `pim`, and the running parameter index `i`. -/
structure ParseAcc where
  sec : List ℕ
  isc : List ℕ
  nle : List ℕ
  nli : List ℕ
  val : List ℚ
  lo : List ℚ
  up : List ℚ
  msk : List Bool
  ref : List (Option ℕ)
  sim : List (ℕ × ℕ)
  pim : List (ℕ × ℕ)
  i : ℕ
deriving DecidableEq

/-- The empty accumulator at the start of `Model::get`. -/
def emptyAcc : ParseAcc := ⟨[], [], [], [], [], [], [], [], [], [], [], 0⟩

/-- Append one parameter specification to the table columns (the `read`
helper pushing `value lo up mask_flag ref` and advancing `i` by one). -/
def pushSpec (a : ParseAcc) (s : PSpec) : ParseAcc :=
  { a with val := a.val ++ [s.val], lo := a.lo ++ [s.lo], up := a.up ++ [s.up],
           msk := a.msk ++ [s.msk], ref := a.ref ++ [s.ref], i := a.i + 1 }

/-- Append a list of parameter specifications. -/
def pushSpecs : ParseAcc → List PSpec → ParseAcc
  | a, [] => a
  | a, s :: t => pushSpecs (pushSpec a s) t

/-- The line-reading loop of `Model::get`: `while (ist >> pid)` with the
duplicate-line check against `pim`, registration `pim[pid] = i`, and the
profile parameter read of exactly `parameter_count` specifications; `k`
counts the lines of the section.  `none` is the error return (the C++ sets
the fail state and returns). -/
def procLines (pcount : ℕ) : ParseAcc → ℕ → List (ℕ × Option (List PSpec)) → Option (ParseAcc × ℕ)
  | a, k, [] => some (a, k)
  | a, k, (pid, ops) :: rest =>
    if (alFind a.pim pid).isSome then none
    else
      match ops with
      | none => none
      | some ps =>
        if ps.length = pcount then
          procLines pcount (pushSpecs { a with pim := alInsert a.pim pid a.i } ps) (k+1) rest
        else none

/-- Processing of one tokenized chunk by the section loop of `Model::get`:
syntax error without `{`, head parse failure, duplicate section id, file
not found, data read failure, resolution parameter read, then the line
loop; on success `nli` records the line count. -/
def procBlock (pcount : ℕ) (a : ParseAcc) : Block → Option ParseAcc
  | .noBrace => none
  | .headBad => none
  | .body b =>
    if (alFind a.sim b.sid).isSome then none
    else if b.fileOk = false then none
    else if b.dataOk = false then none
    else
      match b.res with
      | none => none
      | some r =>
        match procLines pcount
            (pushSpec { a with sim := alInsert a.sim b.sid a.sec.length,
                               sec := a.sec ++ [b.sid], isc := a.isc ++ [a.i],
                               nle := a.nle ++ [b.p] } r) 0 b.lines with
        | none => none
        | some (a3, k) => some { a3 with nli := a3.nli ++ [k] }

/-- The section loop of `Model::get` over all tokenized chunks. -/
def parseBlocks (pcount : ℕ) : ParseAcc → List Block → Option ParseAcc
  | a, [] => some a
  | a, blk :: rest =>
    match procBlock pcount a blk with
    | none => none
    | some a1 => parseBlocks pcount a1 rest

/-- The independent-parameter indexing loop of `Model::get`: a free
(`msk[i]`), unlinked (`ref[i]` empty) parameter has its bounds swapped when
given in reversed order and receives the next index `k`; every other
parameter gets `lo[i] = up[i] = 0` and index 0.  Returns the updated `lo`,
`up` and the new `ind` column. -/
def indexLoop : List ℚ → List ℚ → List Bool → List (Option ℕ) → ℕ →
    (List ℚ × List ℚ × List ℕ)
  | l :: ls, u :: us, m :: ms, r :: rs, k =>
    if m = true ∧ r = none then
      let lu := if l > u then (u, l) else (l, u)
      let rest := indexLoop ls us ms rs (k+1)
      (lu.1 :: rest.1, lu.2 :: rest.2.1, k :: rest.2.2)
    else
      let rest := indexLoop ls us ms rs k
      (0 :: rest.1, 0 :: rest.2.1, 0 :: rest.2.2)
  | _, _, _, _, _ => ([], [], [])

/-- One row of the parameter table during link dereferencing. -/
structure Pent where
  val : ℚ
  lo : ℚ
  up : ℚ
  msk : Bool
  ind : ℕ
  ref : Option ℕ
deriving DecidableEq

/-- The default row used for out-of-range reads. -/
def Pent.dflt : Pent := ⟨0, 0, 0, false, 0, none⟩

/-- Read row `j` of the table. -/
def getE (t : List Pent) (j : ℕ) : Pent := t.getD j Pent.dflt

/-- Write row `j` of the table. -/
def setE : List Pent → ℕ → Pent → List Pent
  | [], _, _ => []
  | _ :: t, 0, e => e :: t
  | h :: t, j+1, e => h :: setE t j e

/-- Zip the table columns into rows. -/
def mkEntries : List ℚ → List ℚ → List ℚ → List Bool → List ℕ → List (Option ℕ) → List Pent
  | v :: vs, l :: ls, u :: us, m :: ms, i :: is, r :: rs =>
    ⟨v, l, u, m, i, r⟩ :: mkEntries vs ls us ms is rs
  | _, _, _, _, _, _ => []

/-- Result of a dereferencing pass: the updated table, an error (reference
not found or self reference; the C++ sets the fail state and returns), or
`spin` when the chain-following loop does not finish within the given
number of steps. -/
inductive DerefRes
| ok (t : List Pent)
| err
| spin
deriving DecidableEq

/-- The chain-following loop `while (!ref[j].empty())` of `Model::get`:
look the reference up, fail on a missing target (`rnfmsg`) or a
self-reference (`srfmsg`), copy `val`, `lo`, `up`, `msk`, `ind` from the
target `k` when `ref[k]` is empty, and always set `ref[j] = ref[k]`.
`lookup` maps a reference id to the target row (for resolution parameters
`isc[sim[id]]`, for line parameters `pim[id] + j`); the fuel argument
bounds the number of iterations, `spin` meaning the bound was hit. -/
def chain (lookup : ℕ → Option ℕ) (j : ℕ) : ℕ → List Pent → DerefRes
  | 0, t => if (getE t j).ref = none then .ok t else .spin
  | fuel+1, t =>
    match (getE t j).ref with
    | none => .ok t
    | some rid =>
      match lookup rid with
      | none => .err
      | some k =>
        if j = k then .err
        else
          chain lookup j fuel
            (if (getE t k).ref = none
             then setE t j ⟨(getE t k).val, (getE t k).lo, (getE t k).up,
                            (getE t k).msk, (getE t k).ind, none⟩
             else setE t j { getE t j with ref := (getE t k).ref })

/-- The resolution-parameter dereferencing loop of `Model::get`: iterate
over `sim` in key order; for each section dereference row `isc[sim value]`
with target lookup `isc[sim[id]]`. -/
def derefSecList (fuel : ℕ) (isc : List ℕ) (sim : List (ℕ × ℕ)) :
    List (ℕ × ℕ) → List Pent → DerefRes
  | [], t => .ok t
  | (_, sidx) :: rest, t =>
    match chain (fun rid => (alFind sim rid).map fun x => isc.getD x 0)
        (isc.getD sidx 0) fuel t with
    | .ok t1 => derefSecList fuel isc sim rest t1
    | .err => .err
    | .spin => .spin

/-- The inner loop of the line-parameter dereferencing: for the offsets
`jo, jo+1, …` (`c` of them) dereference row `base + jo` with target lookup
`pim[id] + jo`. -/
def derefLineJ (fuel : ℕ) (pim : List (ℕ × ℕ)) (base : ℕ) : ℕ → ℕ → List Pent → DerefRes
  | _, 0, t => .ok t
  | jo, c+1, t =>
    match chain (fun rid => (alFind pim rid).map fun x => x + jo) (base + jo) fuel t with
    | .ok t1 => derefLineJ fuel pim base (jo+1) c t1
    | .err => .err
    | .spin => .spin

/-- The line-parameter dereferencing loop of `Model::get`: iterate over
`pim` in key order; for each line dereference its `parameter_count` rows. -/
def derefLineList (fuel pcount : ℕ) (pim : List (ℕ × ℕ)) :
    List (ℕ × ℕ) → List Pent → DerefRes
  | [], t => .ok t
  | (_, base) :: rest, t =>
    match derefLineJ fuel pim base 0 pcount t with
    | .ok t1 => derefLineList fuel pcount pim rest t1
    | .err => .err
    | .spin => .spin

/-- The member state of `Model`: sections (payload abstracted to the id),
`isc`, `nle`, `nli`, the parameter table `val`, `err`, `lo`, `up`, `msk`,
`ind`, and the id maps `sim`, `pim`. -/
structure ModelState where
  sec : List ℕ
  isc : List ℕ
  nle : List ℕ
  nli : List ℕ
  val : List ℚ
  err : List ℚ
  lo : List ℚ
  up : List ℚ
  msk : List Bool
  ind : List ℕ
  sim : List (ℕ × ℕ)
  pim : List (ℕ × ℕ)
deriving DecidableEq

/-- The commit block at the end of `Model::get`: copy the local vectors into
the members; `err` is resized to `n` zeroes. -/
def commit (a : ParseAcc) (t : List Pent) : ModelState :=
  { sec := a.sec, isc := a.isc, nle := a.nle, nli := a.nli,
    val := t.map Pent.val, err := List.replicate t.length 0,
    lo := t.map Pent.lo, up := t.map Pent.up,
    msk := t.map Pent.msk, ind := t.map Pent.ind,
    sim := a.sim, pim := a.pim }

/-- The observable result of `Model::get`: `failed` when the stream's fail
state was set (error return), `hung` when a dereferencing chain did not
finish within the fuel bound, `ok` on the successful return. -/
inductive GetStatus
| failed
| hung
| ok
deriving DecidableEq

/-- The indexing, dereferencing and commit phases of `Model::get`, run on a
successfully parsed accumulator; returns the status together with the
member state after the call (unchanged `m0` unless the commit runs). -/
def derefPhase (pcount fuel : ℕ) (a : ParseAcc) (m0 : ModelState) :
    GetStatus × ModelState :=
  let ix := indexLoop a.lo a.up a.msk a.ref 0
  let t0 := mkEntries a.val ix.1 ix.2.1 a.msk ix.2.2 a.ref
  match derefSecList fuel a.isc a.sim a.sim t0 with
  | .err => (.failed, m0)
  | .spin => (.hung, m0)
  | .ok t1 =>
    match derefLineList fuel pcount a.pim a.pim t1 with
    | .err => (.failed, m0)
    | .spin => (.hung, m0)
    | .ok t2 => (.ok, commit a t2)

/-- `Model::get` over a tokenized model definition: the parsing loop into
local vectors, then indexing, link dereferencing and the final commit; on
every error return the member state is the untouched `m0`. -/
def modelGet (pcount fuel : ℕ) (blocks : List Block) (m0 : ModelState) :
    GetStatus × ModelState :=
  match parseBlocks pcount emptyAcc blocks with
  | none => (.failed, m0)
  | some a => derefPhase pcount fuel a m0

/-- `Model::get_parameter_count`: `ind.max() + 1`, the maximum taken with
`valarray::max` (0 on an empty table in this embedding). -/
def getParameterCount (m : ModelState) : ℕ := m.ind.foldr max 0 + 1

/-- Write component `j` of a rational vector. -/
def setQ : List ℚ → ℕ → ℚ → List ℚ
  | [], _, _ => []
  | _ :: t, 0, v => v :: t
  | h :: t, j+1, v => h :: setQ t j v

/-- The filling loop of `Model::get_initial_parameter_values`: scan the
table with a write counter `j`; a row with `msk[i]` set and `ind[i] == j`
writes `x[j++] = 0.5 * (lo[i] + up[i])`. -/
def initValsLoop : List ℚ → ℕ → List Bool → List ℕ → List ℚ → List ℚ → List ℚ
  | x, j, m :: ms, i :: is, l :: ls, u :: us =>
    if m = true ∧ i = j then
      initValsLoop (setQ x j (0.5 * (l + u))) (j+1) ms is ls us
    else initValsLoop x j ms is ls us
  | x, _, _, _, _, _ => x

/-- `Model::get_initial_parameter_values` (model.h). -/
def getInitialParameterValues (m : ModelState) : List ℚ :=
  initValsLoop (List.replicate (getParameterCount m) 0) 0 m.msk m.ind m.lo m.up

/-- The filling loop of `Model::get_initial_local_step_sizes`: as for the
initial values but writing `z[j++] = 0.5 * (up[i] - lo[i])`. -/
def initStepsLoop : List ℚ → ℕ → List Bool → List ℕ → List ℚ → List ℚ → List ℚ
  | x, j, m :: ms, i :: is, l :: ls, u :: us =>
    if m = true ∧ i = j then
      initStepsLoop (setQ x j (0.5 * (u - l))) (j+1) ms is ls us
    else initStepsLoop x j ms is ls us
  | x, _, _, _, _, _ => x

/-- `Model::get_initial_local_step_sizes` (model.h). -/
def getInitialLocalStepSizes (m : ModelState) : List ℚ :=
  initStepsLoop (List.replicate (getParameterCount m) 0) 0 m.msk m.ind m.lo m.up

/-- The splice at the top of `Model::cost`: a local copy `y` of `val` with
`y[i] = x[ind[i]]` at every masked row. -/
def splice : List ℚ → List Bool → List ℕ → List ℚ → List ℚ
  | v :: vs, m :: ms, i :: is, x =>
    (if m = true then x.getD i 0 else v) :: splice vs ms is x
  | _, _, _, _ => []

/-- The cost sum of `Model::cost`: over the sections,
`sec[i].cost(Superposition(nli[i], &y[isc[i]+1]), y[isc[i]], nle[i])`.
`Section::cost` lives in section.h, which is not among the provided
sources, so it enters as the abstract function `secCost` of the section
payload, the resolution value, the profile parameter slice and the
Legendre order. -/
def costSum (pcount : ℕ) (secCost : ℕ → ℚ → List ℚ → ℕ → ℚ)
    (m : ModelState) (y : List ℚ) : ℚ :=
  (List.range m.sec.length).foldl
    (fun d i =>
      d + secCost (m.sec.getD i 0) (y.getD (m.isc.getD i 0) 0)
          ((y.drop (m.isc.getD i 0 + 1)).take (m.nli.getD i 0 * pcount))
          (m.nle.getD i 0)) 0

/-- `Model::cost` in explicit-state form: the splice is performed on the
local copy `y`, the cost summed over the sections, and the member state
returned alongside. -/
def modelCost (pcount : ℕ) (secCost : ℕ → ℚ → List ℚ → ℕ → ℚ)
    (m : ModelState) (x : List ℚ) : ℚ × ModelState :=
  let y := splice m.val m.msk m.ind x
  (costSum pcount secCost m y, m)


/-! ### Spec-side notions: free parameters and their normalized bounds -/

/-- The number of free (`msk`), unlinked (`ref` empty) parameters. -/
def freeCount : List Bool → List (Option ℕ) → ℕ
  | m :: ms, r :: rs => (if m = true ∧ r = none then 1 else 0) + freeCount ms rs
  | _, _ => 0

/-- The normalized `[lower, upper]` bounds of the free, unlinked parameters
in declaration order (bounds given in reversed order are swapped, as the
indexing loop does). -/
def rootBnds : List ℚ → List ℚ → List Bool → List (Option ℕ) → List (ℚ × ℚ)
  | l :: ls, u :: us, m :: ms, r :: rs =>
    if m = true ∧ r = none then
      (if l > u then (u, l) else (l, u)) :: rootBnds ls us ms rs
    else rootBnds ls us ms rs
  | _, _, _, _ => []

/-- Lower bound of the `j`-th free parameter. -/
def rb1 (rb : List (ℚ × ℚ)) (j : ℕ) : ℚ := (rb.getD j (0, 0)).1

/-- Upper bound of the `j`-th free parameter. -/
def rb2 (rb : List (ℚ × ℚ)) (j : ℕ) : ℚ := (rb.getD j (0, 0)).2

/-- A table row matching the `j`-th free parameter: free, carrying index
`j`, resolved, with the `j`-th normalized bounds. -/
def Mtch (rb : List (ℚ × ℚ)) (j : ℕ) (e : Pent) : Prop :=
  e.msk = true ∧ e.ind = j ∧ e.ref = none ∧ e.lo = rb1 rb j ∧ e.up = rb2 rb j

/-- The rows carry matches for the parameter indices `j, j+1, …, F-1` as a
subsequence, in order. -/
inductive RootSeq (rb : List (ℚ × ℚ)) (F : ℕ) : ℕ → List Pent → Prop
| done (j : ℕ) (t : List Pent) : F ≤ j → RootSeq rb F j t
| here (j : ℕ) (e : Pent) (t : List Pent) :
    j < F → Mtch rb j e → RootSeq rb F (j+1) t → RootSeq rb F j (e :: t)
| skip (j : ℕ) (e : Pent) (t : List Pent) :
    RootSeq rb F j t → RootSeq rb F j (e :: t)

/-- One row is well formed w.r.t. the root bounds: a free row points at a
real free parameter and carries its bounds; a pinned row is zeroed. -/
def GoodE (rb : List (ℚ × ℚ)) (e : Pent) : Prop :=
  (e.msk = true → e.ind < rb.length ∧ e.lo = rb1 rb e.ind ∧ e.up = rb2 rb e.ind) ∧
  (e.msk = false → e.lo = 0 ∧ e.up = 0 ∧ e.ind = 0)

/-- Every resolved row of the table is well formed. -/
def GoodT (rb : List (ℚ × ℚ)) (t : List Pent) : Prop :=
  ∀ p, (getE t p).ref = none → GoodE rb (getE t p)

/-- The table rows produced by indexing: `mkEntries` over the `indexLoop`
output. -/
def entriesOf (vs ls us : List ℚ) (ms : List Bool) (rs : List (Option ℕ)) (k : ℕ) : List Pent :=
  mkEntries vs (indexLoop ls us ms rs k).1 (indexLoop ls us ms rs k).2.1 ms
    (indexLoop ls us ms rs k).2.2 rs

/-- Invariant of the parsing loop: the table columns all have length `i`,
`isc` has one entry per section, every `sim` entry indexes into `isc`, and
every position below `i` is either some section's resolution parameter or
one of the `parameter_count` rows of some line. -/
structure AccInv (pcount : ℕ) (a : ParseAcc) : Prop where
  hval : a.val.length = a.i
  hlo : a.lo.length = a.i
  hup : a.up.length = a.i
  hmsk : a.msk.length = a.i
  href : a.ref.length = a.i
  hisc : a.isc.length = a.sec.length
  hsim : ∀ kv ∈ a.sim, kv.2 < a.isc.length
  hcover : ∀ p < a.i, (∃ kv ∈ a.sim, a.isc.getD kv.2 0 = p) ∨
    (∃ kv ∈ a.pim, ∃ d < pcount, p = kv.2 + d)

/-- The common shape of the two getter fill loops, recursing on the table
rows; `g` is the written value. -/
def fillE (g : Pent → ℚ) : List ℚ → ℕ → List Pent → List ℚ
  | x, j, e :: t =>
    if e.msk = true ∧ e.ind = j then fillE g (setQ x j (g e)) (j+1) t
    else fillE g x j t
  | x, _, [] => x

/-- A one-section model with a single free parameter: value 2, bounds 1 and
3, no reference. -/
def wBlk : Block := .body ⟨0, 0, true, true, some ⟨2, 1, 3, true, none⟩, []⟩

/-- An empty member state to run `Model::get` on. -/
def wM0 : ModelState := ⟨[], [], [], [], [], [], [], [], [], [], [], []⟩

/-- The accumulator parsed from `wBlk`. -/
def wAcc : ParseAcc := ⟨[0], [0], [0], [0], [2], [1], [3], [true], [none], [(0, 0)], [], 1⟩

/-- The member state committed by `Model::get` on `wBlk`. -/
def wM : ModelState := ⟨[0], [0], [0], [0], [2], [0], [1], [3], [true], [0], [(0, 0)], []⟩

/-- A one-section model whose only parameter is pinned. -/
def pBlk : Block := .body ⟨0, 0, true, true, some ⟨7, 0, 0, false, none⟩, []⟩

/-- The accumulator parsed from `pBlk`. -/
def pAcc : ParseAcc := ⟨[0], [0], [0], [0], [7], [0], [0], [false], [none], [(0, 0)], [], 1⟩

/-- The member state committed by `Model::get` on `pBlk`. -/
def pM : ModelState := ⟨[0], [0], [0], [0], [7], [0], [0], [0], [false], [0], [(0, 0)], []⟩

/-- A one-section model with a pinned resolution parameter, a free line
parameter with bounds 1 and 3, and a second line parameter linked to it. -/
def xBlk : Block := .body ⟨0, 0, true, true, some ⟨7, 0, 0, false, none⟩,
  [(10, some [⟨2, 1, 3, true, none⟩]), (11, some [⟨5, 0, 0, true, some 10⟩])]⟩

/-- The accumulator parsed from `xBlk`. -/
def xAcc : ParseAcc := ⟨[0], [0], [0], [2], [7, 2, 5], [0, 1, 0], [0, 3, 0],
  [false, true, true], [none, none, some 10], [(0, 0)], [(10, 1), (11, 2)], 3⟩

/-- The member state committed by `Model::get` on `xBlk`. -/
def xM : ModelState := ⟨[0], [0], [0], [2], [7, 2, 2], [0, 0, 0], [0, 1, 1], [0, 3, 3],
  [false, true, true], [0, 0, 0], [(0, 0)], [(10, 1), (11, 2)]⟩

/-- A model definition with three sections whose resolution parameters are
linked `0 → 1`, `1 → 2`, `2 → 1`: the references reach a cycle that does
not contain the starting section. -/
def cyclicBlocks : List Block :=
  [.body ⟨0, 0, true, true, some ⟨0, 0, 0, true, some 1⟩, []⟩,
   .body ⟨1, 0, true, true, some ⟨0, 0, 0, true, some 2⟩, []⟩,
   .body ⟨2, 0, true, true, some ⟨0, 0, 0, true, some 1⟩, []⟩]

/-- The accumulator `Model::get` parses out of `cyclicBlocks`. -/
def cAcc : ParseAcc :=
  ⟨[0, 1, 2], [0, 1, 2], [0, 0, 0], [0, 0, 0], [0, 0, 0], [0, 0, 0], [0, 0, 0],
   [true, true, true], [some 1, some 2, some 1],
   [(0, 0), (1, 1), (2, 2)], [], 3⟩

/-- The parameter table of `cyclicBlocks` after the indexing loop. -/
def cT0 : List Pent :=
  [⟨0, 0, 0, true, 0, some 1⟩, ⟨0, 0, 0, true, 0, some 2⟩, ⟨0, 0, 0, true, 0, some 1⟩]

end Especia

namespace Especia

/-- `forceNat` is function application. -/
theorem forceNat_eq {A : Type} (s : ℕ) (f : ℕ → A) : forceNat s f = f s := by
  cases s <;> rfl


/-! ## Claims on the profile functions -/

/-- C1: for a Doppler profile built from a parameter slice `q`, the profile
evaluates to exactly zero at every wavelength `x` with `|x - c| ≥ 4 b`,
where `c` and `b` are the central wavelength and Doppler width derived from
`q` in the constructor. -/
theorem gdoppler_truncated (q : ℕ → ℝ) (x : ℝ)
    (h : 4 * (GDoppler.ofSlice q).b ≤ |x - (GDoppler.ofSlice q).c|) :
    (GDoppler.ofSlice q).eval x = 0 := by
  unfold GDoppler.eval truncate
  rw [if_neg, mul_zero]
  push_neg
  calc (4.0 : ℝ) * (GDoppler.ofSlice q).b = 4 * (GDoppler.ofSlice q).b := by norm_num
    _ ≤ |x - (GDoppler.ofSlice q).c| := h

/-- Witness for C1: the zero parameter slice yields `b = 0` and `c = 0`, so
the hypothesis holds at `x = 1` and the profile vanishes there. -/
theorem gdoppler_truncated_witness :
    (GDoppler.ofSlice fun _ => 0).eval 1 = 0 := by
  have hb : (GDoppler.ofSlice fun _ => 0).b = 0 := by
    simp [GDoppler.ofSlice]
  have hc : (GDoppler.ofSlice fun _ => 0).c = 0 := by
    simp [GDoppler.ofSlice]
  exact gdoppler_truncated (fun _ => 0) 1 (by rw [hb, hc]; norm_num)

/-- C2 counterexample: at the concrete slice with `q[0] = 1`, `q[6] = 1` and
`q[7] = 10⁶` (so μ = 1), the modified rest wavelength computed by the
constructor differs from the formula claimed by the specification: the code
scales the relativistic term by 10⁻⁸ relative to `1/q[0]`, not by 10⁻⁶. -/
theorem adoppler_u_counterexample :
    ADoppler.uOf (fun i => if i = 0 then 1 else if i = 6 then 1 else if i = 7 then 1e6 else 0) ≠
      ADoppler.uSpec (fun i => if i = 0 then 1 else if i = 6 then 1 else if i = 7 then 1e6 else 0) := by
  unfold ADoppler.uOf ADoppler.uSpec micro
  simp only [reduceIte]
  norm_num

/-- C2 (amended): the modified rest wavelength computed by the `A_Doppler`
constructor equals `1 / (1/q[0] + q[6]·(μ² + 2μ)·10⁻⁸)` with
`μ = q[7]·10⁻⁶`; equivalently, the relativistic correction
`q[6]·(μ² + 2μ)` is applied to the wavenumber `10⁸/q[0]`. -/
theorem adoppler_u_amended (q : ℕ → ℝ) :
    ADoppler.uOf q =
      1 / (1 / q 0 + q 6 * ((q 7 * 1e-6) ^ 2 + 2 * (q 7 * 1e-6)) * 1e-8) := by
  unfold ADoppler.uOf micro
  have h1 : (1.0e8 : ℝ) / q 0 * 1e-8 = 1 / q 0 := by
    rw [div_mul_eq_mul_div]; norm_num
  have h : 1 / q 0 + q 6 * ((q 7 * 1e-6) ^ 2 + 2 * (q 7 * 1e-6)) * 1e-8 =
      (1.0e8 / q 0 + q 6 * (q 7 * 1e-6) * (q 7 * 1e-6 + 2.0)) * 1e-8 := by
    rw [add_mul, h1]; ring
  rw [h, one_div, mul_inv]
  rw [div_eq_mul_inv, mul_comm]
  norm_num

/-! ## Claim on the bounded constraint -/

/-- C5: for bound vectors `a`, `b` of length `n` and a parameter vector `x`
with at least `n` components, `is_violated(x, n)` is `true` exactly when some
component `i < n` lies outside `[a[i], b[i]]`, and `cost(x, n)` is zero. -/
theorem bounded_constraint_spec {T : Type} [LinearOrder T] [Inhabited T] [Zero T]
    (a b x : List T) (n : ℕ) (ha : a.length = n) (hb : b.length = n)
    (_hx : n ≤ x.length) :
    ((BoundedConstraint.ofBounds a b n).isViolated x n = true ↔
      ∃ i < n, x.getD i default < a.getD i default ∨
        b.getD i default < x.getD i default) ∧
    (BoundedConstraint.ofBounds a b n).cost x n = 0 := by
  have hta : a.take n = a := by rw [← ha]; exact List.take_length a
  have htb : b.take n = b := by rw [← hb]; exact List.take_length b
  constructor
  · unfold BoundedConstraint.isViolated BoundedConstraint.ofBounds
    rw [List.any_eq_true]
    simp only [hta, htb]
    constructor
    · rintro ⟨i, hi, hp⟩
      rw [List.mem_range] at hi
      refine ⟨i, hi, ?_⟩
      rw [Bool.or_eq_true, decide_eq_true_eq, decide_eq_true_eq] at hp
      exact hp
    · rintro ⟨i, hi, hp⟩
      refine ⟨i, List.mem_range.mpr hi, ?_⟩
      rw [Bool.or_eq_true, decide_eq_true_eq, decide_eq_true_eq]
      exact hp
  · rfl

/-- Witness for C5: with bounds `a = [0, 0]`, `b = [2, 2]` and `x = [1, 3]`
over ℤ, the constraint is violated because `x[1] = 3 > 2 = b[1]`. -/
theorem bounded_constraint_spec_witness :
    (BoundedConstraint.ofBounds [(0 : ℤ), 0] [2, 2] 2).isViolated [1, 3] 2 = true ∧
    (BoundedConstraint.ofBounds [(0 : ℤ), 0] [2, 2] 2).cost [1, 3] 2 = 0 := by
  have h := bounded_constraint_spec [(0 : ℤ), 0] [2, 2] [1, 3] 2 (by decide) (by decide) (by decide)
  exact ⟨h.1.mpr ⟨1, by decide, by decide⟩, h.2⟩

/-! ## Claims on the Mersenne twister generators -/

set_option maxRecDepth 10000 in
/-- C3 counterexample: the `Mersenne_Twister` of random.h, constructed from
the single seed 5489, does not produce the published MT19937 reference
sequence (its first output is 3866587091, not 3499211612), because the
single-seed constructor expands the seed as the two-word array
`{seed & 0xFFFFFFFF, seed & 0xFFFFFFFF00000000}` with the array-mixing
reset, not with the Knuth-LCG single-seed expansion. -/
theorem mt19937_new_not_reference :
    mtOutputsNew (mtInitNew 5489) 10 ≠ mt19937RefSeq := by decide

set_option maxRecDepth 10000 in
/-- C3 (amended): the legacy `especia::mersenne_twister` mt19937 generator
(mtwister.h), whose single-seed constructor uses the Knuth-LCG state
expansion, reproduces the published MT19937 reference output sequence from
the seed 5489; the random.h `Mersenne_Twister` constructed from the same
single seed uses the two-word array expansion instead and produces a
different sequence. -/
theorem mt19937_old_reference :
    mtOutputsOld (mtInitOld 5489) 10 = mt19937RefSeq := by decide

/-- C4: two `Mersenne_Twister` generators (random.h) constructed from the
same seed produce identical sequences of their first `k` outputs, both of
`rand()` and of `operator()`; the output sequence is a function of the seed
and of the number of calls only. -/
theorem mt_deterministic (s : ℕ) (g1 g2 : MtState)
    (h1 : g1 = mtInitNew s) (h2 : g2 = mtInitNew s) (k : ℕ) :
    mtOutputsNew g1 k = mtOutputsNew g2 k ∧
      mtRealOutputsNew g1 k = mtRealOutputsNew g2 k := by
  subst h1; subst h2; exact ⟨rfl, rfl⟩

/-- Witness for C4: two generator instances constructed from seed 31415
agree on their first three outputs. -/
theorem mt_deterministic_witness :
    mtOutputsNew (mtInitNew 31415) 3 = mtOutputsNew (mtInitNew 31415) 3 ∧
      mtRealOutputsNew (mtInitNew 31415) 3 = mtRealOutputsNew (mtInitNew 31415) 3 :=
  mt_deterministic 31415 (mtInitNew 31415) (mtInitNew 31415) rfl rfl 3

/-! ## Claim on the eigendecomposition driver -/

/-- C6: the selected decomposition strategy fails with the internal-solver
error exactly when the eigensolver does not converge on a legal problem,
fails with the invalid-argument error whenever the dimension is not
positive or the matrix holds a non-finite entry, and in all other cases
returns normally with all `n` eigenpairs. -/
theorem rdecompose_error_contract (n : ℤ) (allFinite converges : Bool) :
    (rDecompose n allFinite converges = .internalSolverError ↔
      0 < n ∧ allFinite = true ∧ converges = false) ∧
    (rDecompose n allFinite converges = .invalidArgumentError ↔
      n ≤ 0 ∨ allFinite = false) ∧
    (0 < n → allFinite = true → converges = true →
      rDecompose n allFinite converges = .success n.toNat) := by
  simp only [rDecompose, syevrInfo]
  refine ⟨?_, ?_, ?_⟩
  · split_ifs <;> simp_all
  · split_ifs <;> simp_all
  · intro h1 h2 h3
    subst h2; subst h3
    split_ifs <;> simp_all <;> omega

/-- Witness for C6 at `n = 3` with finite entries and convergence: the
decomposition succeeds. -/
theorem rdecompose_error_contract_witness :
    (0 : ℤ) < 3 ∧ rDecompose 3 true true = .success 3 :=
  ⟨by decide, (rdecompose_error_contract 3 true true).2.2 (by decide) rfl rfl⟩

/-! ## Claim on the cost evaluation (frame property) -/

/-- C9: evaluating `Model::cost` leaves the member state untouched — the
splice of `x` into the masked rows happens on the local copy `y` — and the
returned value is the section cost sum over that spliced copy. -/
theorem model_cost_frame (pcount : ℕ) (secCost : ℕ → ℚ → List ℚ → ℕ → ℚ)
    (m : ModelState) (x : List ℚ) :
    (modelCost pcount secCost m x).2 = m ∧
    (modelCost pcount secCost m x).1 =
      costSum pcount secCost m (splice m.val m.msk m.ind x) :=
  ⟨rfl, rfl⟩

/-! ## Claim on error handling in `Model::get` -/

/-- Two-step induction on ℕ. -/
theorem two_step (P : ℕ → Prop) (h0 : P 0) (h1 : P 1)
    (hstep : ∀ n, P n → P (n+2)) : ∀ n, P n := by
  have key : ∀ n, P n ∧ P (n+1) := by
    intro n
    induction n with
    | zero => exact ⟨h0, h1⟩
    | succ k ih => exact ⟨ih.2, hstep k ih.1⟩
  exact fun n => (key n).1

/-- On the cyclic table the chain-following loop at row 0 never terminates:
its state is periodic with period two (`ref[0]` alternates between the
references of rows 1 and 2, never becoming empty and never hitting the
self-reference check), so every fuel bound is exhausted. -/
theorem chain_cyc_spin :
    ∀ f, chain (fun rid => (alFind cAcc.sim rid).map fun x => cAcc.isc.getD x 0)
      (cAcc.isc.getD 0 0) f cT0 = .spin := by
  refine two_step _ rfl rfl ?_
  intro f ih
  calc chain (fun rid => (alFind cAcc.sim rid).map fun x => cAcc.isc.getD x 0)
        (cAcc.isc.getD 0 0) (f+2) cT0
      = chain (fun rid => (alFind cAcc.sim rid).map fun x => cAcc.isc.getD x 0)
        (cAcc.isc.getD 0 0) f cT0 := rfl
    _ = .spin := ih

/-- A spinning chain on the first section makes the whole resolution
dereferencing pass spin. -/
theorem derefSecList_cons_spin (fuel : ℕ) (isc : List ℕ) (sim : List (ℕ × ℕ))
    (p sidx : ℕ) (rest : List (ℕ × ℕ)) (t : List Pent)
    (h : chain (fun rid => (alFind sim rid).map fun x => isc.getD x 0)
      (isc.getD sidx 0) fuel t = .spin) :
    derefSecList fuel isc sim ((p, sidx) :: rest) t = .spin := by
  simp only [derefSecList]
  rw [h]

/-- A spinning resolution pass makes `Model::get` hang. -/
theorem modelGet_spin (pcount fuel : ℕ) (blocks : List Block) (m0 : ModelState)
    (a : ParseAcc) (hp : parseBlocks pcount emptyAcc blocks = some a)
    (hs : derefSecList fuel a.isc a.sim a.sim
      (mkEntries a.val (indexLoop a.lo a.up a.msk a.ref 0).1
        (indexLoop a.lo a.up a.msk a.ref 0).2.1 a.msk
        (indexLoop a.lo a.up a.msk a.ref 0).2.2 a.ref) = .spin) :
    modelGet pcount fuel blocks m0 = (.hung, m0) := by
  unfold modelGet
  rw [hp]
  simp only [derefPhase]
  rw [hs]

/-- C7: `Model::get` does not return on the `cyclicBlocks` model: while
dereferencing the first section's reference the chain-following loop
alternates forever between the references of sections 1 and 2 (the cycle
`1 → 2 → 1` entered from section 0 is never recognised as a self
reference), so no amount of fuel makes the call return; in particular the
fail state is never set and no error is reported. -/
theorem model_get_cyclic_diverges (m0 : ModelState) (fuel : ℕ) :
    modelGet 8 fuel cyclicBlocks m0 = (.hung, m0) := by
  refine modelGet_spin 8 fuel cyclicBlocks m0 cAcc (by decide) ?_
  exact derefSecList_cons_spin fuel cAcc.isc cAcc.sim 0 0 [(1, 1), (2, 2)]
    (mkEntries cAcc.val (indexLoop cAcc.lo cAcc.up cAcc.msk cAcc.ref 0).1
      (indexLoop cAcc.lo cAcc.up cAcc.msk cAcc.ref 0).2.1 cAcc.msk
      (indexLoop cAcc.lo cAcc.up cAcc.msk cAcc.ref 0).2.2 cAcc.ref)
    (chain_cyc_spin fuel)

theorem rootBnds_sorted : ∀ (ls us : List ℚ) (ms : List Bool) (rs : List (Option ℕ)),
    ∀ q ∈ rootBnds ls us ms rs, q.1 ≤ q.2 := by
  intro ls
  induction ls with
  | nil => intro us ms rs q hq; simp [rootBnds] at hq
  | cons l lt ih =>
    intro us ms rs q hq
    rcases us with _ | ⟨u, ut⟩
    · simp [rootBnds] at hq
    rcases ms with _ | ⟨m, mt⟩
    · simp [rootBnds] at hq
    rcases rs with _ | ⟨r, rt⟩
    · simp [rootBnds] at hq
    rw [rootBnds] at hq
    split at hq
    · rcases List.mem_cons.mp hq with h | h
      · subst h
        by_cases hlu : l > u
        · simp only [if_pos hlu]
          exact le_of_lt hlu
        · simp only [if_neg hlu]
          exact not_lt.mp hlu
      · exact ih ut mt rt q h
    · exact ih ut mt rt q hq

theorem goodE_dflt (rb : List (ℚ × ℚ)) : GoodE rb Pent.dflt := by
  constructor <;> intro h <;> simp [Pent.dflt] at h ⊢

/-! ### Table access lemmas -/

theorem setE_length : ∀ (t : List Pent) (j : ℕ) (e : Pent), (setE t j e).length = t.length := by
  intro t
  induction t with
  | nil => intro j e; rfl
  | cons h tl ih =>
    intro j e
    cases j with
    | zero => rfl
    | succ j' => simpa [setE] using ih j' e

theorem getE_setE_same (t : List Pent) (j : ℕ) (e : Pent) (hj : j < t.length) :
    getE (setE t j e) j = e := by
  induction t generalizing j with
  | nil => simp at hj
  | cons h tl ih =>
    cases j with
    | zero => rfl
    | succ j' =>
      simp only [List.length_cons] at hj
      exact ih j' (by omega)

theorem getE_setE_other (t : List Pent) (j p : ℕ) (e : Pent) (hp : p ≠ j) :
    getE (setE t j e) p = getE t p := by
  induction t generalizing j p with
  | nil => rfl
  | cons h tl ih =>
    cases j with
    | zero =>
      cases p with
      | zero => exact absurd rfl hp
      | succ p' => rfl
    | succ j' =>
      cases p with
      | zero => rfl
      | succ p' => exact ih j' p' (fun hh => hp (by rw [hh]))

theorem getE_ge_length (t : List Pent) (p : ℕ) (hp : t.length ≤ p) :
    getE t p = Pent.dflt := by
  unfold getE
  exact List.getD_eq_default _ _ hp

theorem getE_cons_succ (e : Pent) (t : List Pent) (p : ℕ) :
    getE (e :: t) (p + 1) = getE t p := rfl

theorem getE_cons_zero (e : Pent) (t : List Pent) : getE (e :: t) 0 = e := rfl

theorem entriesOf_cons (v : ℚ) (vt : List ℚ) (l : ℚ) (lt : List ℚ) (u : ℚ) (ut : List ℚ)
    (m : Bool) (mt : List Bool) (r : Option ℕ) (rt : List (Option ℕ)) (k : ℕ) :
    entriesOf (v :: vt) (l :: lt) (u :: ut) (m :: mt) (r :: rt) k =
      if m = true ∧ r = none then
        (if l > u then (⟨v, u, l, m, k, r⟩ : Pent) else ⟨v, l, u, m, k, r⟩) ::
          entriesOf vt lt ut mt rt (k+1)
      else ⟨v, 0, 0, m, 0, r⟩ :: entriesOf vt lt ut mt rt k := by
  unfold entriesOf
  rw [indexLoop]
  split_ifs with h1 h2 <;> simp [mkEntries]

theorem freeCount_cons (m : Bool) (mt : List Bool) (r : Option ℕ) (rt : List (Option ℕ)) :
    freeCount (m :: mt) (r :: rt) =
      (if m = true ∧ r = none then 1 else 0) + freeCount mt rt := rfl

theorem rootBnds_length :
    ∀ (ls us : List ℚ) (ms : List Bool) (rs : List (Option ℕ)),
      us.length = ls.length → ms.length = ls.length → rs.length = ls.length →
      (rootBnds ls us ms rs).length = freeCount ms rs := by
  intro ls
  induction ls with
  | nil =>
    intro us ms rs hu hm hr
    rw [List.length_nil, List.length_eq_zero] at hu hm hr
    subst hu; subst hm; subst hr
    rfl
  | cons l lt ih =>
    intro us ms rs hu hm hr
    rcases us with _ | ⟨u, ut⟩; · simp at hu
    rcases ms with _ | ⟨m, mt⟩; · simp at hm
    rcases rs with _ | ⟨r, rt⟩; · simp at hr
    simp only [List.length_cons, Nat.succ_inj] at hu hm hr
    rw [rootBnds, freeCount_cons]
    by_cases hmr : m = true ∧ r = none
    · rw [if_pos hmr, if_pos hmr, List.length_cons, ih ut mt rt hu hm hr]; omega
    · rw [if_neg hmr, if_neg hmr, ih ut mt rt hu hm hr]; omega

/-- The indexing postcondition: the entry list has the input length, its
rows keep the parsed `val`, `msk` and `ref` columns, every resolved row is
well formed over the root bounds, and the rows carry the root matches in
order. -/
theorem entriesOf_spec :
    ∀ (ls us : List ℚ) (ms : List Bool) (rs : List (Option ℕ)) (vs : List ℚ)
      (k : ℕ) (rbPre : List (ℚ × ℚ)),
      rbPre.length = k →
      us.length = ls.length → ms.length = ls.length → rs.length = ls.length →
      vs.length = ls.length →
      (entriesOf vs ls us ms rs k).length = ls.length ∧
      (∀ p, (getE (entriesOf vs ls us ms rs k) p).msk = ms.getD p false) ∧
      (∀ p, (getE (entriesOf vs ls us ms rs k) p).ref = rs.getD p none) ∧
      (∀ p, (getE (entriesOf vs ls us ms rs k) p).val = vs.getD p 0) ∧
      GoodT (rbPre ++ rootBnds ls us ms rs) (entriesOf vs ls us ms rs k) ∧
      RootSeq (rbPre ++ rootBnds ls us ms rs) (rbPre ++ rootBnds ls us ms rs).length k
        (entriesOf vs ls us ms rs k) := by
  intro ls
  induction ls with
  | nil =>
    intro us ms rs vs k rbPre hpre hu hm hr hv
    rw [List.length_nil, List.length_eq_zero] at hu hm hr hv
    subst hu; subst hm; subst hr; subst hv
    refine ⟨rfl, ?_, ?_, ?_, ?_, ?_⟩
    · intro p; simp [entriesOf, indexLoop, mkEntries, getE, Pent.dflt]
    · intro p; simp [entriesOf, indexLoop, mkEntries, getE, Pent.dflt]
    · intro p; simp [entriesOf, indexLoop, mkEntries, getE, Pent.dflt]
    · intro p _; exact goodE_dflt _
    · exact RootSeq.done k _ (by simp [rootBnds, hpre])
  | cons l lt ih =>
    intro us ms rs vs k rbPre hpre hu hm hr hv
    rcases us with _ | ⟨u, ut⟩; · simp at hu
    rcases ms with _ | ⟨m, mt⟩; · simp at hm
    rcases rs with _ | ⟨r, rt⟩; · simp at hr
    rcases vs with _ | ⟨v, vt⟩; · simp at hv
    simp only [List.length_cons, Nat.succ_inj] at hu hm hr hv
    rw [entriesOf_cons, rootBnds]
    by_cases hc : m = true ∧ r = none
    · rw [if_pos hc, if_pos hc]
      set e0 : Pent := if l > u then ⟨v, u, l, m, k, r⟩ else ⟨v, l, u, m, k, r⟩ with he0
      set lu : ℚ × ℚ := if l > u then (u, l) else (l, u) with hlu
      have he0lo : e0.lo = lu.1 := by rw [he0, hlu]; split <;> rfl
      have he0up : e0.up = lu.2 := by rw [he0, hlu]; split <;> rfl
      have he0msk : e0.msk = m := by rw [he0]; split <;> rfl
      have he0ind : e0.ind = k := by rw [he0]; split <;> rfl
      have he0ref : e0.ref = r := by rw [he0]; split <;> rfl
      have he0val : e0.val = v := by rw [he0]; split <;> rfl
      have hassoc : rbPre ++ lu :: rootBnds lt ut mt rt =
          (rbPre ++ [lu]) ++ rootBnds lt ut mt rt := by
        simp
      have hpre1 : (rbPre ++ [lu]).length = k + 1 := by simp [hpre]
      obtain ⟨ihlen, ihmsk, ihref, ihval, ihgood, ihseq⟩ :=
        ih ut mt rt vt (k+1) (rbPre ++ [lu]) hpre1 hu hm hr hv
      have hget1 : rb1 (rbPre ++ lu :: rootBnds lt ut mt rt) k = lu.1 := by
        unfold rb1
        rw [List.getD_append_right _ _ _ _ (by omega)]
        simp [hpre]
      have hget2 : rb2 (rbPre ++ lu :: rootBnds lt ut mt rt) k = lu.2 := by
        unfold rb2
        rw [List.getD_append_right _ _ _ _ (by omega)]
        simp [hpre]
      refine ⟨by simp [ihlen], ?_, ?_, ?_, ?_, ?_⟩
      · intro p
        cases p with
        | zero => simpa [getE_cons_zero] using he0msk
        | succ p' => rw [getE_cons_succ]; exact ihmsk p'
      · intro p
        cases p with
        | zero => simpa [getE_cons_zero] using he0ref
        | succ p' => rw [getE_cons_succ]; exact ihref p'
      · intro p
        cases p with
        | zero => simpa [getE_cons_zero] using he0val
        | succ p' => rw [getE_cons_succ]; exact ihval p'
      · intro p href
        cases p with
        | zero =>
          rw [getE_cons_zero] at href ⊢
          constructor
          · intro _
            refine ⟨?_, ?_, ?_⟩
            · rw [he0ind]
              have : (rbPre ++ lu :: rootBnds lt ut mt rt).length = k + 1 + (rootBnds lt ut mt rt).length := by
                simp [hpre]; omega
              omega
            · rw [he0ind, he0lo, hget1]
            · rw [he0ind, he0up, hget2]
          · intro hmf
            rw [he0msk] at hmf
            rw [hmf] at hc
            exact absurd hc.1 (by simp)
        | succ p' =>
          rw [getE_cons_succ] at href ⊢
          have := ihgood p' href
          rwa [hassoc]
      · refine RootSeq.here k e0 _ ?_ ?_ ?_
        · have : (rbPre ++ lu :: rootBnds lt ut mt rt).length = k + 1 + (rootBnds lt ut mt rt).length := by
            simp [hpre]; omega
          omega
        · exact ⟨by rw [he0msk]; exact hc.1, he0ind, by rw [he0ref]; exact hc.2,
            by rw [he0lo, hget1], by rw [he0up, hget2]⟩
        · rw [hassoc]
          exact ihseq
    · rw [if_neg hc, if_neg hc]
      obtain ⟨ihlen, ihmsk, ihref, ihval, ihgood, ihseq⟩ :=
        ih ut mt rt vt k rbPre hpre hu hm hr hv
      refine ⟨by simp [ihlen], ?_, ?_, ?_, ?_, ?_⟩
      · intro p
        cases p with
        | zero => rfl
        | succ p' => rw [getE_cons_succ]; exact ihmsk p'
      · intro p
        cases p with
        | zero => rfl
        | succ p' => rw [getE_cons_succ]; exact ihref p'
      · intro p
        cases p with
        | zero => rfl
        | succ p' => rw [getE_cons_succ]; exact ihval p'
      · intro p href
        cases p with
        | zero =>
          rw [getE_cons_zero] at href ⊢
          constructor
          · intro hmt
            exfalso
            simp only at href
            exact hc ⟨hmt, href⟩
          · intro _; exact ⟨rfl, rfl, rfl⟩
        | succ p' =>
          rw [getE_cons_succ] at href ⊢
          exact ihgood p' href
      · exact RootSeq.skip k _ _ ihseq

/-- Structure of a successful chain: the table keeps its length, only row
`j` can change, the resulting row `j` is either unchanged or a copy of some
resolved row `k ≠ j` (with its reference cleared), and row `j` ends
resolved. -/
theorem chain_ok (lookup : ℕ → Option ℕ) (j : ℕ) :
    ∀ (fuel : ℕ) (t t' : List Pent), chain lookup j fuel t = .ok t' →
      t'.length = t.length ∧
      (∀ p, p ≠ j → getE t' p = getE t p) ∧
      (getE t' j = getE t j ∨ ∃ k, k ≠ j ∧ (getE t k).ref = none ∧
        getE t' j = ⟨(getE t k).val, (getE t k).lo, (getE t k).up,
                     (getE t k).msk, (getE t k).ind, none⟩) ∧
      (getE t' j).ref = none := by
  intro fuel
  induction fuel with
  | zero =>
    intro t t' h
    rw [chain] at h
    split_ifs at h with hr
    cases h
    exact ⟨rfl, fun p _ => rfl, Or.inl rfl, hr⟩
  | succ fuel ih =>
    intro t t' h
    rw [chain] at h
    split at h
    · rename_i href
      cases h
      exact ⟨rfl, fun p _ => rfl, Or.inl rfl, href⟩
    · rename_i rid href
      split at h
      · cases h
      · rename_i k hlk
        by_cases hjk : j = k
        · rw [if_pos hjk] at h; cases h
        · rw [if_neg hjk] at h
          have hjlen : j < t.length := by
            by_contra hge
            push_neg at hge
            rw [getE_ge_length t j hge] at href
            simp [Pent.dflt] at href
          by_cases hek : (getE t k).ref = none
          · rw [if_pos hek] at h
            obtain ⟨ihlen, ihoth, ihj, ihref⟩ := ih _ _ h
            refine ⟨by rw [ihlen, setE_length], ?_, ?_, ihref⟩
            · intro p hp
              rw [ihoth p hp, getE_setE_other t j p _ hp]
            · rcases ihj with hl | ⟨k', hk', hk'ref, hcopy⟩
              · right
                refine ⟨k, fun hh => hjk hh.symm, hek, ?_⟩
                rw [hl, getE_setE_same _ _ _ hjlen]
              · right
                rw [getE_setE_other t j k' _ hk'] at hk'ref hcopy
                exact ⟨k', hk', hk'ref, hcopy⟩
          · rw [if_neg hek] at h
            obtain ⟨ihlen, ihoth, ihj, ihref⟩ := ih _ _ h
            refine ⟨by rw [ihlen, setE_length], ?_, ?_, ihref⟩
            · intro p hp
              rw [ihoth p hp, getE_setE_other t j p _ hp]
            · rcases ihj with hl | ⟨k', hk', hk'ref, hcopy⟩
              · exfalso
                rw [hl, getE_setE_same _ _ _ hjlen] at ihref
                exact hek ihref
              · right
                rw [getE_setE_other t j k' _ hk'] at hk'ref hcopy
                exact ⟨k', hk', hk'ref, hcopy⟩

theorem chain_noop (lookup : ℕ → Option ℕ) (j fuel : ℕ) (t : List Pent)
    (h : (getE t j).ref = none) : chain lookup j fuel t = .ok t := by
  cases fuel with
  | zero => rw [chain, if_pos h]
  | succ f => rw [chain]; simp only [h]

theorem chain_stable (lookup : ℕ → Option ℕ) (j fuel : ℕ) (t t' : List Pent)
    (h : chain lookup j fuel t = .ok t') :
    ∀ p, (getE t p).ref = none → getE t' p = getE t p := by
  intro p hp
  by_cases hpj : p = j
  · subst hpj
    rw [chain_noop lookup p fuel t hp] at h
    cases h
    rfl
  · exact (chain_ok lookup j fuel t t' h).2.1 p hpj

theorem goodE_copy (rb : List (ℚ × ℚ)) (e : Pent) (hg : GoodE rb e) :
    GoodE rb ⟨e.val, e.lo, e.up, e.msk, e.ind, none⟩ := by
  exact ⟨fun hm => hg.1 hm, fun hm => hg.2 hm⟩

theorem chain_good (lookup : ℕ → Option ℕ) (j fuel : ℕ) (t t' : List Pent)
    (rb : List (ℚ × ℚ)) (h : chain lookup j fuel t = .ok t') (hg : GoodT rb t) :
    GoodT rb t' := by
  obtain ⟨hlen, hoth, hj, href⟩ := chain_ok lookup j fuel t t' h
  intro p hp
  by_cases hpj : p = j
  · subst hpj
    rcases hj with hl | ⟨k, hk, hkref, hcopy⟩
    · rw [hl] at hp ⊢
      exact hg p hp
    · rw [hcopy]
      exact goodE_copy rb _ (hg k hkref)
  · rw [hoth p hpj] at hp ⊢
    exact hg p hp

theorem rootSeq_transport (rb : List (ℚ × ℚ)) (F : ℕ) :
    ∀ (t t' : List Pent), t'.length = t.length →
      (∀ p, (getE t p).ref = none → getE t' p = getE t p) →
      ∀ j, RootSeq rb F j t → RootSeq rb F j t' := by
  intro t
  induction t with
  | nil =>
    intro t' hlen _ j hseq
    rw [List.length_nil, List.length_eq_zero] at hlen
    subst hlen
    exact hseq
  | cons e tl ih =>
    intro t' hlen hstable j hseq
    rcases t' with _ | ⟨e', tl'⟩
    · simp at hlen
    simp only [List.length_cons, Nat.succ_inj] at hlen
    have hstable0 : e.ref = none → e' = e := by
      intro hr
      have := hstable 0 (by simpa [getE_cons_zero] using hr)
      simpa [getE_cons_zero] using this
    have hstables : ∀ p, (getE tl p).ref = none → getE tl' p = getE tl p := by
      intro p hp
      have := hstable (p+1) (by simpa [getE_cons_succ] using hp)
      simpa [getE_cons_succ] using this
    cases hseq with
    | done _ _ hF => exact RootSeq.done j _ hF
    | here _ _ _ hjF hm hrest =>
      rw [hstable0 hm.2.2.1]
      exact RootSeq.here j e tl' hjF hm (ih tl' hlen hstables (j+1) hrest)
    | skip _ _ _ hrest =>
      exact RootSeq.skip j e' tl' (ih tl' hlen hstables j hrest)

/-- Structure of a successful resolution dereferencing pass: length kept,
resolved rows untouched, every processed target resolved, well-formedness
kept. -/
theorem derefSecList_ok (fuel : ℕ) (isc : List ℕ) (sim : List (ℕ × ℕ)) :
    ∀ (entries : List (ℕ × ℕ)) (t t' : List Pent),
      derefSecList fuel isc sim entries t = .ok t' →
      t'.length = t.length ∧
      (∀ p, (getE t p).ref = none → getE t' p = getE t p) ∧
      (∀ kv ∈ entries, (getE t' (isc.getD kv.2 0)).ref = none) ∧
      (∀ rb, GoodT rb t → GoodT rb t') := by
  intro entries
  induction entries with
  | nil =>
    intro t t' h
    rw [derefSecList] at h
    cases h
    exact ⟨rfl, fun p _ => rfl, by simp, fun rb hg => hg⟩
  | cons kv rest ih =>
    intro t t' h
    rcases kv with ⟨k0, sidx⟩
    rw [derefSecList] at h
    split at h
    · rename_i t1 hch
      obtain ⟨ihlen, ihstable, ihtargets, ihgood⟩ := ih t1 t' h
      obtain ⟨clen, _, _, cref⟩ :=
        chain_ok (fun rid => (alFind sim rid).map fun x => isc.getD x 0)
          (isc.getD sidx 0) fuel t t1 hch
      have cstable := chain_stable _ _ _ _ _ hch
      refine ⟨by rw [ihlen, clen], ?_, ?_, ?_⟩
      · intro p hp
        rw [ihstable p (by rw [cstable p hp]; exact hp), cstable p hp]
      · intro kv hkv
        rcases List.mem_cons.mp hkv with he | he
        · subst he
          rw [ihstable _ cref]
          exact cref
        · exact ihtargets kv he
      · intro rb hg
        exact ihgood rb (chain_good _ _ _ _ _ rb hch hg)
    · cases h
    · cases h

/-- Structure of the per-line dereferencing of `c` consecutive rows. -/
theorem derefLineJ_ok (fuel : ℕ) (pim : List (ℕ × ℕ)) (base : ℕ) :
    ∀ (c jo : ℕ) (t t' : List Pent),
      derefLineJ fuel pim base jo c t = .ok t' →
      t'.length = t.length ∧
      (∀ p, (getE t p).ref = none → getE t' p = getE t p) ∧
      (∀ d < c, (getE t' (base + (jo + d))).ref = none) ∧
      (∀ rb, GoodT rb t → GoodT rb t') := by
  intro c
  induction c with
  | zero =>
    intro jo t t' h
    rw [derefLineJ] at h
    cases h
    exact ⟨rfl, fun p _ => rfl, by omega, fun rb hg => hg⟩
  | succ c ih =>
    intro jo t t' h
    rw [derefLineJ] at h
    split at h
    · rename_i t1 hch
      obtain ⟨ihlen, ihstable, ihtargets, ihgood⟩ := ih (jo+1) t1 t' h
      obtain ⟨clen, _, _, cref⟩ :=
        chain_ok (fun rid => (alFind pim rid).map fun x => x + jo) (base + jo) fuel t t1 hch
      have cstable := chain_stable _ _ _ _ _ hch
      refine ⟨by rw [ihlen, clen], ?_, ?_, ?_⟩
      · intro p hp
        rw [ihstable p (by rw [cstable p hp]; exact hp), cstable p hp]
      · intro d hd
        cases d with
        | zero =>
          rw [Nat.add_zero]
          rw [ihstable _ cref]
          exact cref
        | succ d' =>
          have := ihtargets d' (by omega)
          have harith : base + (jo + 1 + d') = base + (jo + (d' + 1)) := by omega
          rwa [harith] at this
      · intro rb hg
        exact ihgood rb (chain_good _ _ _ _ _ rb hch hg)
    · cases h
    · cases h

/-- Structure of the line dereferencing pass over all `pim` entries. -/
theorem derefLineList_ok (fuel pcount : ℕ) (pim : List (ℕ × ℕ)) :
    ∀ (entries : List (ℕ × ℕ)) (t t' : List Pent),
      derefLineList fuel pcount pim entries t = .ok t' →
      t'.length = t.length ∧
      (∀ p, (getE t p).ref = none → getE t' p = getE t p) ∧
      (∀ kv ∈ entries, ∀ d < pcount, (getE t' (kv.2 + d)).ref = none) ∧
      (∀ rb, GoodT rb t → GoodT rb t') := by
  intro entries
  induction entries with
  | nil =>
    intro t t' h
    rw [derefLineList] at h
    cases h
    exact ⟨rfl, fun p _ => rfl, by simp, fun rb hg => hg⟩
  | cons kv rest ih =>
    intro t t' h
    rcases kv with ⟨k0, base⟩
    rw [derefLineList] at h
    split at h
    · rename_i t1 hch
      obtain ⟨ihlen, ihstable, ihtargets, ihgood⟩ := ih t1 t' h
      obtain ⟨clen, cstable, ctargets, cgood⟩ := derefLineJ_ok fuel pim base pcount 0 t t1 hch
      refine ⟨by rw [ihlen, clen], ?_, ?_, ?_⟩
      · intro p hp
        rw [ihstable p (by rw [cstable p hp]; exact hp), cstable p hp]
      · intro kv hkv d hd
        rcases List.mem_cons.mp hkv with he | he
        · subst he
          have h0 := ctargets d hd
          rw [Nat.zero_add] at h0
          rw [ihstable _ h0]
          exact h0
        · exact ihtargets kv he d hd
      · intro rb hg
        exact ihgood rb ((derefLineJ_ok fuel pim base pcount 0 t t1 hch).2.2.2 rb hg)
    · cases h
    · cases h

theorem alInsert_mem_of_mem : ∀ (l : List (ℕ × ℕ)) (k v : ℕ) (kv : ℕ × ℕ),
    kv ∈ l → kv ∈ alInsert l k v := by
  intro l
  induction l with
  | nil => intro k v kv h; cases h
  | cons hd tl ih =>
    intro k v kv h
    rw [alInsert]
    split_ifs with hlt
    · exact List.mem_cons_of_mem _ h
    · rcases List.mem_cons.mp h with he | he
      · exact List.mem_cons.mpr (Or.inl he)
      · exact List.mem_cons.mpr (Or.inr (ih k v kv he))

theorem alInsert_mem_self : ∀ (l : List (ℕ × ℕ)) (k v : ℕ), (k, v) ∈ alInsert l k v := by
  intro l
  induction l with
  | nil => intro k v; exact List.mem_singleton.mpr rfl
  | cons hd tl ih =>
    intro k v
    rw [alInsert]
    split_ifs with hlt
    · exact List.mem_cons_self _ _
    · exact List.mem_cons_of_mem _ (ih k v)

theorem pushSpec_effect (a : ParseAcc) (s : PSpec) :
    (pushSpec a s).i = a.i + 1 ∧ (pushSpec a s).sim = a.sim ∧
    (pushSpec a s).pim = a.pim ∧ (pushSpec a s).isc = a.isc ∧
    (pushSpec a s).sec = a.sec ∧
    (pushSpec a s).val.length = a.val.length + 1 ∧
    (pushSpec a s).lo.length = a.lo.length + 1 ∧
    (pushSpec a s).up.length = a.up.length + 1 ∧
    (pushSpec a s).msk.length = a.msk.length + 1 ∧
    (pushSpec a s).ref.length = a.ref.length + 1 := by
  unfold pushSpec
  refine ⟨rfl, rfl, rfl, rfl, rfl, ?_, ?_, ?_, ?_, ?_⟩ <;> simp

theorem pushSpecs_effect : ∀ (ps : List PSpec) (a : ParseAcc),
    (pushSpecs a ps).i = a.i + ps.length ∧ (pushSpecs a ps).sim = a.sim ∧
    (pushSpecs a ps).pim = a.pim ∧ (pushSpecs a ps).isc = a.isc ∧
    (pushSpecs a ps).sec = a.sec ∧
    (pushSpecs a ps).val.length = a.val.length + ps.length ∧
    (pushSpecs a ps).lo.length = a.lo.length + ps.length ∧
    (pushSpecs a ps).up.length = a.up.length + ps.length ∧
    (pushSpecs a ps).msk.length = a.msk.length + ps.length ∧
    (pushSpecs a ps).ref.length = a.ref.length + ps.length := by
  intro ps
  induction ps with
  | nil =>
    intro a
    refine ⟨?_, rfl, rfl, rfl, rfl, ?_, ?_, ?_, ?_, ?_⟩ <;> simp [pushSpecs]
  | cons s rest ih =>
    intro a
    rw [pushSpecs]
    obtain ⟨h1, h2, h3, h4, h5, h6, h7, h8, h9, h10⟩ := ih (pushSpec a s)
    obtain ⟨g1, g2, g3, g4, g5, g6, g7, g8, g9, g10⟩ := pushSpec_effect a s
    refine ⟨?_, ?_, ?_, ?_, ?_, ?_, ?_, ?_, ?_, ?_⟩ <;>
      simp only [h1, h2, h3, h4, h5, h6, h7, h8, h9, h10,
        g1, g2, g3, g4, g5, g6, g7, g8, g9, g10, List.length_cons] <;> omega

theorem alInsert_mem_inv : ∀ (l : List (ℕ × ℕ)) (k v : ℕ) (kv : ℕ × ℕ),
    kv ∈ alInsert l k v → kv ∈ l ∨ kv = (k, v) := by
  intro l
  induction l with
  | nil =>
    intro k v kv h
    exact Or.inr (List.mem_singleton.mp h)
  | cons hd tl ih =>
    intro k v kv h
    rw [alInsert] at h
    split_ifs at h with hlt
    · rcases List.mem_cons.mp h with he | he
      · exact Or.inr he
      · exact Or.inl he
    · rcases List.mem_cons.mp h with he | he
      · exact Or.inl (List.mem_cons.mpr (Or.inl he))
      · rcases ih k v kv he with hi | hi
        · exact Or.inl (List.mem_cons.mpr (Or.inr hi))
        · exact Or.inr hi

theorem procLines_inv (pcount : ℕ) :
    ∀ (ls : List (ℕ × Option (List PSpec))) (a : ParseAcc) (k : ℕ) (res : ParseAcc × ℕ),
      procLines pcount a k ls = some res → AccInv pcount a →
      AccInv pcount res.1 ∧ res.1.sim = a.sim ∧ res.1.isc = a.isc ∧ res.1.sec = a.sec := by
  intro ls
  induction ls with
  | nil =>
    intro a k res h hinv
    rw [procLines] at h
    cases h
    exact ⟨hinv, rfl, rfl, rfl⟩
  | cons pr rest ih =>
    intro a k res h hinv
    rcases pr with ⟨pid, ops⟩
    rcases ops with _ | ps
    · simp only [procLines] at h
      split_ifs at h
    · simp only [procLines] at h
      split_ifs at h with hdup hlen
      set a1 : ParseAcc := { a with pim := alInsert a.pim pid a.i } with ha1
      obtain ⟨e1, e2, e3, e4, e5, e6, e7, e8, e9, e10⟩ := pushSpecs_effect ps a1
      have hinv2 : AccInv pcount (pushSpecs a1 ps) := by
        refine ⟨?_, ?_, ?_, ?_, ?_, ?_, ?_, ?_⟩
        · rw [e6, e1]; have := hinv.hval; simp [ha1] at this ⊢; omega
        · rw [e7, e1]; have := hinv.hlo; simp [ha1] at this ⊢; omega
        · rw [e8, e1]; have := hinv.hup; simp [ha1] at this ⊢; omega
        · rw [e9, e1]; have := hinv.hmsk; simp [ha1] at this ⊢; omega
        · rw [e10, e1]; have := hinv.href; simp [ha1] at this ⊢; omega
        · rw [e4, e5]; exact hinv.hisc
        · rw [e2, e4]; exact hinv.hsim
        · rw [e1, e2, e3, e4]
          intro p hp
          simp only [ha1] at hp ⊢
          by_cases hpi : p < a.i
          · rcases hinv.hcover p hpi with hc | hc
            · exact Or.inl hc
            · obtain ⟨kv, hkv, d, hd, he⟩ := hc
              exact Or.inr ⟨kv, alInsert_mem_of_mem _ _ _ _ hkv, d, hd, he⟩
          · right
            refine ⟨(pid, a.i), alInsert_mem_self _ _ _, p - a.i, ?_, ?_⟩
            · omega
            · simp; omega
      obtain ⟨r1, r2, r3, r4⟩ := ih (pushSpecs a1 ps) (k+1) res h hinv2
      refine ⟨r1, ?_, ?_, ?_⟩
      · rw [r2, e2]
      · rw [r3, e4]
      · rw [r4, e5]

theorem secAcc_inv (pcount : ℕ) (a : ParseAcc) (sid p0 : ℕ) (r : PSpec)
    (hinv : AccInv pcount a) :
    AccInv pcount (pushSpec { a with sim := alInsert a.sim sid a.sec.length, sec := a.sec ++ [sid], isc := a.isc ++ [a.i], nle := a.nle ++ [p0] } r) := by
  refine ⟨?_, ?_, ?_, ?_, ?_, ?_, ?_, ?_⟩
  · have := hinv.hval; simp [pushSpec]; omega
  · have := hinv.hlo; simp [pushSpec]; omega
  · have := hinv.hup; simp [pushSpec]; omega
  · have := hinv.hmsk; simp [pushSpec]; omega
  · have := hinv.href; simp [pushSpec]; omega
  · have := hinv.hisc; simp [pushSpec]; omega
  · simp only [pushSpec]
    intro kv hkv
    rcases alInsert_mem_inv _ _ _ _ hkv with hm | hm
    · have := hinv.hsim kv hm
      simp
      omega
    · subst hm
      have := hinv.hisc
      simp
      omega
  · simp only [pushSpec]
    intro p hp
    by_cases hpi : p < a.i
    · rcases hinv.hcover p hpi with hc | hc
      · obtain ⟨kv, hkv, he⟩ := hc
        left
        refine ⟨kv, alInsert_mem_of_mem _ _ _ _ hkv, ?_⟩
        rw [List.getD_append _ _ _ _ (hinv.hsim kv hkv)]
        exact he
      · exact Or.inr hc
    · left
      refine ⟨(sid, a.sec.length), alInsert_mem_self _ _ _, ?_⟩
      have hlen : a.sec.length = a.isc.length := hinv.hisc.symm
      rw [hlen, List.getD_append_right _ _ _ _ (le_refl _)]
      simp
      omega

theorem procBlock_inv (pcount : ℕ) (a : ParseAcc) (blk : Block) (a' : ParseAcc)
    (h : procBlock pcount a blk = some a') (hinv : AccInv pcount a) : AccInv pcount a' := by
  cases blk with
  | noBrace => cases h
  | headBad => cases h
  | body b =>
    simp only [procBlock] at h
    split_ifs at h with h1 h2 h3
    rcases hres : b.res with _ | r
    · rw [hres] at h; cases h
    · rw [hres] at h
      simp only at h
      rcases hpl : procLines pcount
          (pushSpec { a with sim := alInsert a.sim b.sid a.sec.length, sec := a.sec ++ [b.sid], isc := a.isc ++ [a.i], nle := a.nle ++ [b.p] } r) 0 b.lines with _ | pr
      · rw [hpl] at h; cases h
      · rw [hpl] at h
        simp only at h
        rcases pr with ⟨a3, k⟩
        cases h
        obtain ⟨r1, _, _, _⟩ := procLines_inv pcount b.lines _ 0 (a3, k) hpl
          (secAcc_inv pcount a b.sid b.p r hinv)
        exact ⟨r1.hval, r1.hlo, r1.hup, r1.hmsk, r1.href, r1.hisc, r1.hsim, r1.hcover⟩

theorem parseBlocks_inv (pcount : ℕ) :
    ∀ (blocks : List Block) (a a' : ParseAcc),
      parseBlocks pcount a blocks = some a' → AccInv pcount a → AccInv pcount a' := by
  intro blocks
  induction blocks with
  | nil =>
    intro a a' h hinv
    rw [parseBlocks] at h
    cases h
    exact hinv
  | cons blk rest ih =>
    intro a a' h hinv
    rw [parseBlocks] at h
    rcases hpb : procBlock pcount a blk with _ | a1
    · rw [hpb] at h; cases h
    · rw [hpb] at h
      simp only at h
      exact ih a1 a' h (procBlock_inv pcount a blk a1 hpb hinv)

theorem emptyAcc_inv (pcount : ℕ) : AccInv pcount emptyAcc := by
  refine ⟨rfl, rfl, rfl, rfl, rfl, rfl, ?_, ?_⟩
  · intro kv hkv; cases hkv
  · intro p hp; cases hp

theorem entriesOf_unfold (vs ls us : List ℚ) (ms : List Bool) (rs : List (Option ℕ)) (k : ℕ) :
    mkEntries vs (indexLoop ls us ms rs k).1 (indexLoop ls us ms rs k).2.1 ms
      (indexLoop ls us ms rs k).2.2 rs = entriesOf vs ls us ms rs k := rfl

/-- Structure of a successful `Model::get`: the committed table has one row
per parameter, every row is resolved, every row is well formed over the
normalized free-parameter bounds, the root matches appear in order, and
rows that were resolved right after indexing are untouched. -/
theorem modelGet_ok_struct (pcount fuel : ℕ) (blocks : List Block) (m0 m : ModelState)
    (a : ParseAcc) (hp : parseBlocks pcount emptyAcc blocks = some a)
    (hg : modelGet pcount fuel blocks m0 = (.ok, m)) :
    ∃ t2 : List Pent,
      m = commit a t2 ∧
      t2.length = a.i ∧
      (∀ p, (getE t2 p).ref = none) ∧
      GoodT (rootBnds a.lo a.up a.msk a.ref) t2 ∧
      RootSeq (rootBnds a.lo a.up a.msk a.ref) (rootBnds a.lo a.up a.msk a.ref).length 0 t2 ∧
      (∀ p, (getE (entriesOf a.val a.lo a.up a.msk a.ref 0) p).ref = none →
        getE t2 p = getE (entriesOf a.val a.lo a.up a.msk a.ref 0) p) := by
  have hinv : AccInv pcount a := parseBlocks_inv pcount blocks emptyAcc a hp (emptyAcc_inv pcount)
  obtain ⟨hlen0, hmsk0, href0, hval0, hgood0, hseq0⟩ :=
    entriesOf_spec a.lo a.up a.msk a.ref a.val 0 [] rfl
      (by rw [hinv.hup, hinv.hlo]) (by rw [hinv.hmsk, hinv.hlo])
      (by rw [hinv.href, hinv.hlo]) (by rw [hinv.hval, hinv.hlo])
  rw [List.nil_append] at hgood0 hseq0
  unfold modelGet at hg
  rw [hp] at hg
  simp only [derefPhase] at hg
  rw [entriesOf_unfold] at hg
  cases hsec : derefSecList fuel a.isc a.sim a.sim (entriesOf a.val a.lo a.up a.msk a.ref 0) with
  | err => rw [hsec] at hg; simp only [] at hg; cases hg
  | spin => rw [hsec] at hg; simp only [] at hg; cases hg
  | ok t1 =>
    rw [hsec] at hg
    simp only [] at hg
    cases hlin : derefLineList fuel pcount a.pim a.pim t1 with
    | err => rw [hlin] at hg; simp only [] at hg; cases hg
    | spin => rw [hlin] at hg; simp only [] at hg; cases hg
    | ok t2 =>
      rw [hlin] at hg
      simp only [] at hg
      obtain ⟨s1len, s1stable, s1targets, s1good⟩ :=
        derefSecList_ok fuel a.isc a.sim a.sim _ t1 hsec
      obtain ⟨s2len, s2stable, s2targets, s2good⟩ :=
        derefLineList_ok fuel pcount a.pim a.pim t1 t2 hlin
      have hm : m = commit a t2 := by
        have := hg
        simp only [Prod.mk.injEq] at this
        exact this.2.symm
      have hstable : ∀ p, (getE (entriesOf a.val a.lo a.up a.msk a.ref 0) p).ref = none →
          getE t2 p = getE (entriesOf a.val a.lo a.up a.msk a.ref 0) p := by
        intro p hp0
        rw [s2stable p (by rw [s1stable p hp0]; exact hp0), s1stable p hp0]
      have ht2len : t2.length = a.i := by
        rw [s2len, s1len, hlen0, hinv.hlo]
      refine ⟨t2, hm, ht2len, ?_, ?_, ?_, hstable⟩
      · intro p
        by_cases hpi : p < a.i
        · rcases hinv.hcover p hpi with hc | hc
          · obtain ⟨kv, hkv, he⟩ := hc
            have h1 := s1targets kv hkv
            rw [he] at h1
            rw [s2stable p h1]
            exact h1
          · obtain ⟨kv, hkv, d, hd, he⟩ := hc
            have h2 := s2targets kv hkv d hd
            rw [← he] at h2
            exact h2
        · rw [getE_ge_length t2 p (by omega)]
          rfl
      · exact s2good _ (s1good _ hgood0)
      · refine rootSeq_transport _ _ _ t2 (by rw [s2len, s1len]) ?_ 0 hseq0
        exact hstable

/-! ### The fill loops of the getters -/

theorem setQ_length : ∀ (x : List ℚ) (j : ℕ) (v : ℚ), (setQ x j v).length = x.length := by
  intro x
  induction x with
  | nil => intro j v; rfl
  | cons h t ih =>
    intro j v
    cases j with
    | zero => rfl
    | succ j' => simpa [setQ] using ih j' v

theorem getD_setQ_same (x : List ℚ) (j : ℕ) (v : ℚ) (hj : j < x.length) :
    (setQ x j v).getD j 0 = v := by
  induction x generalizing j with
  | nil => simp at hj
  | cons h t ih =>
    cases j with
    | zero => rfl
    | succ j' =>
      simp only [List.length_cons] at hj
      exact ih j' (by omega)

theorem getD_setQ_other (x : List ℚ) (j p : ℕ) (v : ℚ) (hp : p ≠ j) :
    (setQ x j v).getD p 0 = x.getD p 0 := by
  induction x generalizing j p with
  | nil => rfl
  | cons h t ih =>
    cases j with
    | zero =>
      cases p with
      | zero => exact absurd rfl hp
      | succ p' => rfl
    | succ j' =>
      cases p with
      | zero => rfl
      | succ p' => exact ih j' p' (fun hh => hp (by rw [hh]))

theorem mem_setQ : ∀ (x : List ℚ) (j : ℕ) (v : ℚ), ∀ q ∈ setQ x j v, q ∈ x ∨ q = v := by
  intro x
  induction x with
  | nil => intro j v q hq; cases hq
  | cons h t ih =>
    intro j v q hq
    cases j with
    | zero =>
      rcases List.mem_cons.mp hq with he | he
      · exact Or.inr he
      · exact Or.inl (List.mem_cons_of_mem _ he)
    | succ j' =>
      rcases List.mem_cons.mp hq with he | he
      · exact Or.inl (he ▸ List.mem_cons_self _ _)
      · rcases ih j' v q he with h1 | h1
        · exact Or.inl (List.mem_cons_of_mem _ h1)
        · exact Or.inr h1

theorem getD_map_pent {α : Type} (f : Pent → α) (d : α) (hd : f Pent.dflt = d) :
    ∀ (t : List Pent) (p : ℕ), (t.map f).getD p d = f (getE t p) := by
  intro t
  induction t with
  | nil =>
    intro p
    simp only [List.map_nil, List.getD_nil]
    rw [getE_ge_length _ _ (by simp), hd]
  | cons e t ih =>
    intro p
    cases p with
    | zero => rfl
    | succ p' =>
      simp only [List.map_cons, List.getD_cons_succ, getE_cons_succ]
      exact ih p'

theorem exists_getE_of_mem : ∀ (t : List Pent) (e : Pent), e ∈ t →
    ∃ p, p < t.length ∧ getE t p = e := by
  intro t
  induction t with
  | nil => intro e he; cases he
  | cons h tl ih =>
    intro e he
    rcases List.mem_cons.mp he with h1 | h1
    · exact ⟨0, by simp, h1.symm⟩
    · obtain ⟨p, hp, hpe⟩ := ih e h1
      exact ⟨p + 1, by simp; omega, hpe⟩

theorem foldr_max_le : ∀ (t : List Pent) (B : ℕ), (∀ e ∈ t, e.ind ≤ B) →
    (t.map Pent.ind).foldr max 0 ≤ B := by
  intro t
  induction t with
  | nil => intro B _; simp
  | cons e tl ih =>
    intro B hB
    simp only [List.map_cons, List.foldr_cons]
    exact max_le (hB e (List.mem_cons_self _ _))
      (ih B fun e' he' => hB e' (List.mem_cons_of_mem _ he'))

theorem foldr_max_ge : ∀ (t : List Pent) (e : Pent), e ∈ t →
    e.ind ≤ (t.map Pent.ind).foldr max 0 := by
  intro t
  induction t with
  | nil => intro e he; cases he
  | cons h tl ih =>
    intro e he
    simp only [List.map_cons, List.foldr_cons]
    rcases List.mem_cons.mp he with h1 | h1
    · rw [h1]; exact le_max_left _ _
    · exact le_trans (ih e h1) (le_max_right _ _)

theorem rootSeq_bump (rb : List (ℚ × ℚ)) (F : ℕ) :
    ∀ (t : List Pent) (j : ℕ), RootSeq rb F j t → RootSeq rb F (j+1) t := by
  intro t
  induction t with
  | nil =>
    intro j h
    cases h with
    | done a b hF => exact RootSeq.done _ _ (by omega)
  | cons e tl ih =>
    intro j h
    cases h with
    | done a b hF => exact RootSeq.done _ _ (by omega)
    | here a b c hjF hm hrest => exact RootSeq.skip _ _ _ hrest
    | skip a b c hrest => exact RootSeq.skip _ _ _ (ih j hrest)

theorem rootSeq_attain (rb : List (ℚ × ℚ)) (F : ℕ) :
    ∀ (t : List Pent) (j : ℕ), RootSeq rb F j t →
      ∀ i, j ≤ i → i < F → ∃ e ∈ t, Mtch rb i e := by
  intro t
  induction t with
  | nil =>
    intro j h i hji hiF
    cases h with
    | done a b hF => omega
  | cons e tl ih =>
    intro j h i hji hiF
    cases h with
    | done a b hF => omega
    | here a b c hjF hm hrest =>
      rcases Nat.eq_or_lt_of_le hji with he | hlt
      · exact ⟨e, List.mem_cons_self _ _, he ▸ hm⟩
      · obtain ⟨e', he', hm'⟩ := ih (j+1) hrest i (by omega) hiF
        exact ⟨e', List.mem_cons_of_mem _ he', hm'⟩
    | skip a b c hrest =>
      obtain ⟨e', he', hm'⟩ := ih j hrest i hji hiF
      exact ⟨e', List.mem_cons_of_mem _ he', hm'⟩

/-- `ind.max() + 1` counts the free parameters: every row's index is below
the free count and the last free index is attained. -/
theorem foldr_ind_max (rb : List (ℚ × ℚ)) (t : List Pent)
    (hGE : ∀ p, GoodE rb (getE t p))
    (hseq : RootSeq rb rb.length 0 t) (hF : 1 ≤ rb.length) :
    (t.map Pent.ind).foldr max 0 + 1 = rb.length := by
  have hub : (t.map Pent.ind).foldr max 0 ≤ rb.length - 1 := by
    refine foldr_max_le t _ ?_
    intro e he
    obtain ⟨p, hp, hpe⟩ := exists_getE_of_mem t e he
    have hge := hGE p
    rw [hpe] at hge
    cases hmsk : e.msk with
    | true => have := (hge.1 hmsk).1; omega
    | false => have := (hge.2 hmsk).2.2; omega
  have hlb : rb.length - 1 ≤ (t.map Pent.ind).foldr max 0 := by
    obtain ⟨e, he, hm⟩ := rootSeq_attain rb rb.length t 0 hseq (rb.length - 1)
      (by omega) (by omega)
    have := foldr_max_ge t e he
    rw [hm.2.1] at this
    omega
  omega

theorem initValsLoop_eq_fillE : ∀ (t : List Pent) (x : List ℚ) (j : ℕ),
    initValsLoop x j (t.map Pent.msk) (t.map Pent.ind) (t.map Pent.lo) (t.map Pent.up)
      = fillE (fun e => 0.5 * (e.lo + e.up)) x j t := by
  intro t
  induction t with
  | nil => intro x j; rfl
  | cons e tl ih =>
    intro x j
    simp only [List.map_cons, initValsLoop, fillE]
    split_ifs <;> apply ih

theorem initStepsLoop_eq_fillE : ∀ (t : List Pent) (x : List ℚ) (j : ℕ),
    initStepsLoop x j (t.map Pent.msk) (t.map Pent.ind) (t.map Pent.lo) (t.map Pent.up)
      = fillE (fun e => 0.5 * (e.up - e.lo)) x j t := by
  intro t
  induction t with
  | nil => intro x j; rfl
  | cons e tl ih =>
    intro x j
    simp only [List.map_cons, initStepsLoop, fillE]
    split_ifs <;> apply ih

/-- The fill-loop scan: rows are well formed and carry the root matches in
order from counter `j`, so the loop leaves positions below `j` alone and
writes `G r` at every position `r` in `[j, F)`. -/
theorem fillE_spec (g : Pent → ℚ) (rb : List (ℚ × ℚ)) (G : ℕ → ℚ)
    (hgG : ∀ (r : ℕ) (e : Pent), e.lo = rb1 rb r → e.up = rb2 rb r → g e = G r) :
    ∀ (t : List Pent) (x : List ℚ) (j : ℕ),
      (∀ e ∈ t, e.msk = true →
        e.ind < rb.length ∧ e.lo = rb1 rb e.ind ∧ e.up = rb2 rb e.ind) →
      RootSeq rb rb.length j t →
      rb.length ≤ x.length →
      (fillE g x j t).length = x.length ∧
      (∀ p, p < j → (fillE g x j t).getD p 0 = x.getD p 0) ∧
      (∀ r, j ≤ r → r < rb.length → (fillE g x j t).getD r 0 = G r) := by
  intro t
  induction t with
  | nil =>
    intro x j hGm hseq hxF
    refine ⟨rfl, fun p _ => rfl, fun r hjr hrF => ?_⟩
    exfalso
    cases hseq with
    | done a b hF => omega
  | cons e tl ih =>
    intro x j hGm hseq hxF
    by_cases hc : e.msk = true ∧ e.ind = j
    · have hfe : fillE g x j (e :: tl) = fillE g (setQ x j (g e)) (j+1) tl := by
        simp only [fillE]
        rw [if_pos hc]
      rw [hfe]
      obtain ⟨hindF, hlo, hup⟩ := hGm e (List.mem_cons_self _ _) hc.1
      have hjF : j < rb.length := hc.2 ▸ hindF
      have hge : g e = G j := hgG j e (hc.2 ▸ hlo) (hc.2 ▸ hup)
      have hseq' : RootSeq rb rb.length (j+1) tl := by
        cases hseq with
        | done a b hF => exact RootSeq.done _ _ (by omega)
        | here a b c hjF' hm hrest => exact hrest
        | skip a b c hrest => exact rootSeq_bump rb rb.length tl j hrest
      obtain ⟨ihlen, ihlow, ihhit⟩ := ih (setQ x j (g e)) (j+1)
        (fun e' he' => hGm e' (List.mem_cons_of_mem _ he'))
        hseq' (by rw [setQ_length]; exact hxF)
      refine ⟨by rw [ihlen, setQ_length], ?_, ?_⟩
      · intro p hp
        rw [ihlow p (by omega), getD_setQ_other x j p _ (by omega)]
      · intro r hjr hrF
        rcases Nat.eq_or_lt_of_le hjr with he' | hlt
        · rw [← he', ihlow j (by omega), getD_setQ_same x j _ (by omega)]
          exact hge
        · exact ihhit r (by omega) hrF
    · have hfe : fillE g x j (e :: tl) = fillE g x j tl := by
        simp only [fillE]
        rw [if_neg hc]
      rw [hfe]
      have hseq' : RootSeq rb rb.length j tl := by
        cases hseq with
        | done a b hF => exact RootSeq.done _ _ hF
        | here a b c hjF' hm hrest => exact absurd ⟨hm.1, hm.2.1⟩ hc
        | skip a b c hrest => exact hrest
      exact ih x j (fun e' he' => hGm e' (List.mem_cons_of_mem _ he')) hseq' hxF

theorem fillE_nonneg (g : Pent → ℚ) :
    ∀ (t : List Pent) (x : List ℚ) (j : ℕ),
      (∀ q ∈ x, 0 ≤ q) → (∀ e ∈ t, e.msk = true → 0 ≤ g e) →
      ∀ q ∈ fillE g x j t, 0 ≤ q := by
  intro t
  induction t with
  | nil => intro x j hx _ q hq; exact hx q hq
  | cons e tl ih =>
    intro x j hx hg q hq
    by_cases hc : e.msk = true ∧ e.ind = j
    · have hfe : fillE g x j (e :: tl) = fillE g (setQ x j (g e)) (j+1) tl := by
        simp only [fillE]
        rw [if_pos hc]
      rw [hfe] at hq
      refine ih (setQ x j (g e)) (j+1) ?_
        (fun e' he' => hg e' (List.mem_cons_of_mem _ he')) q hq
      intro q' hq'
      rcases mem_setQ x j (g e) q' hq' with h1 | h1
      · exact hx q' h1
      · rw [h1]; exact hg e (List.mem_cons_self _ _) hc.1
    · have hfe : fillE g x j (e :: tl) = fillE g x j tl := by
        simp only [fillE]
        rw [if_neg hc]
      rw [hfe] at hq
      exact ih x j hx (fun e' he' => hg e' (List.mem_cons_of_mem _ he')) q hq

theorem getVals_commit (a : ParseAcc) (t : List Pent) :
    getInitialParameterValues (commit a t) =
      fillE (fun e => 0.5 * (e.lo + e.up))
        (List.replicate (getParameterCount (commit a t)) 0) 0 t :=
  initValsLoop_eq_fillE t _ 0

theorem getSteps_commit (a : ParseAcc) (t : List Pent) :
    getInitialLocalStepSizes (commit a t) =
      fillE (fun e => 0.5 * (e.up - e.lo))
        (List.replicate (getParameterCount (commit a t)) 0) 0 t :=
  initStepsLoop_eq_fillE t _ 0

theorem goodE_mem (rb : List (ℚ × ℚ)) (t : List Pent)
    (hGE : ∀ p, GoodE rb (getE t p)) :
    ∀ e ∈ t, e.msk = true →
      e.ind < rb.length ∧ e.lo = rb1 rb e.ind ∧ e.up = rb2 rb e.ind := by
  intro e he hm
  obtain ⟨p, hp, hpe⟩ := exists_getE_of_mem t e he
  have h := hGE p
  rw [hpe] at h
  exact h.1 hm

theorem rootBnds_le (ls us : List ℚ) (ms : List Bool) (rs : List (Option ℕ)) (i : ℕ)
    (hi : i < (rootBnds ls us ms rs).length) :
    rb1 (rootBnds ls us ms rs) i ≤ rb2 (rootBnds ls us ms rs) i := by
  unfold rb1 rb2
  have hmem : (rootBnds ls us ms rs).getD i (0, 0) ∈ rootBnds ls us ms rs := by
    rw [List.getD_eq_getElem _ _ hi]
    exact List.getElem_mem _
  exact rootBnds_sorted ls us ms rs _ hmem

/-- A successful `Model::get` commits a table whose rows are all resolved
and well formed over the root bounds and carry the root matches in order. -/
theorem modelGet_ok_table (pcount fuel : ℕ) (blocks : List Block) (m0 m : ModelState)
    (a : ParseAcc) (hp : parseBlocks pcount emptyAcc blocks = some a)
    (hg : modelGet pcount fuel blocks m0 = (.ok, m)) :
    ∃ t2 : List Pent,
      m = commit a t2 ∧
      (∀ p, GoodE (rootBnds a.lo a.up a.msk a.ref) (getE t2 p)) ∧
      RootSeq (rootBnds a.lo a.up a.msk a.ref)
        (rootBnds a.lo a.up a.msk a.ref).length 0 t2 := by
  obtain ⟨t2, hm, _, hres, hgood, hseq, _⟩ :=
    modelGet_ok_struct pcount fuel blocks m0 m a hp hg
  exact ⟨t2, hm, fun p => hgood p (hres p), hseq⟩

/-- C8: for a successfully parsed and dereferenced model with at least one
free, unlinked parameter, `get_initial_parameter_values` and
`get_initial_local_step_sizes` return vectors of length the number of free,
unlinked parameters, the `j`-th components being the midpoint and the
half-width of the `j`-th free parameter's normalized bounds. -/
theorem model_initial_values (pcount fuel : ℕ) (blocks : List Block) (m0 m : ModelState)
    (a : ParseAcc) (hp : parseBlocks pcount emptyAcc blocks = some a)
    (hg : modelGet pcount fuel blocks m0 = (.ok, m))
    (hF : 1 ≤ freeCount a.msk a.ref) :
    (getInitialParameterValues m).length = freeCount a.msk a.ref ∧
    (getInitialLocalStepSizes m).length = freeCount a.msk a.ref ∧
    (∀ j, j < freeCount a.msk a.ref →
      (getInitialParameterValues m).getD j 0 =
        0.5 * (rb1 (rootBnds a.lo a.up a.msk a.ref) j +
               rb2 (rootBnds a.lo a.up a.msk a.ref) j)) ∧
    (∀ j, j < freeCount a.msk a.ref →
      (getInitialLocalStepSizes m).getD j 0 =
        0.5 * (rb2 (rootBnds a.lo a.up a.msk a.ref) j -
               rb1 (rootBnds a.lo a.up a.msk a.ref) j)) := by
  obtain ⟨t2, hm, hGE, hseq⟩ := modelGet_ok_table pcount fuel blocks m0 m a hp hg
  have hinv := parseBlocks_inv pcount blocks emptyAcc a hp (emptyAcc_inv pcount)
  have hFlen : (rootBnds a.lo a.up a.msk a.ref).length = freeCount a.msk a.ref :=
    rootBnds_length a.lo a.up a.msk a.ref (by rw [hinv.hup, hinv.hlo])
      (by rw [hinv.hmsk, hinv.hlo]) (by rw [hinv.href, hinv.hlo])
  have hF1 : 1 ≤ (rootBnds a.lo a.up a.msk a.ref).length := by rw [hFlen]; exact hF
  have hcount : getParameterCount (commit a t2) =
      (rootBnds a.lo a.up a.msk a.ref).length :=
    foldr_ind_max _ t2 hGE hseq hF1
  have hGm := goodE_mem _ t2 hGE
  have hgGv : ∀ (r : ℕ) (e : Pent),
      e.lo = rb1 (rootBnds a.lo a.up a.msk a.ref) r →
      e.up = rb2 (rootBnds a.lo a.up a.msk a.ref) r →
      (fun e : Pent => 0.5 * (e.lo + e.up)) e =
        0.5 * (rb1 (rootBnds a.lo a.up a.msk a.ref) r +
               rb2 (rootBnds a.lo a.up a.msk a.ref) r) := by
    intro r e h1 h2
    show 0.5 * (e.lo + e.up) = _
    rw [h1, h2]
  have hgGs : ∀ (r : ℕ) (e : Pent),
      e.lo = rb1 (rootBnds a.lo a.up a.msk a.ref) r →
      e.up = rb2 (rootBnds a.lo a.up a.msk a.ref) r →
      (fun e : Pent => 0.5 * (e.up - e.lo)) e =
        0.5 * (rb2 (rootBnds a.lo a.up a.msk a.ref) r -
               rb1 (rootBnds a.lo a.up a.msk a.ref) r) := by
    intro r e h1 h2
    show 0.5 * (e.up - e.lo) = _
    rw [h1, h2]
  have hv : getInitialParameterValues m =
      fillE (fun e => 0.5 * (e.lo + e.up))
        (List.replicate (rootBnds a.lo a.up a.msk a.ref).length 0) 0 t2 := by
    rw [hm, getVals_commit, hcount]
  have hs : getInitialLocalStepSizes m =
      fillE (fun e => 0.5 * (e.up - e.lo))
        (List.replicate (rootBnds a.lo a.up a.msk a.ref).length 0) 0 t2 := by
    rw [hm, getSteps_commit, hcount]
  obtain ⟨hvlen, -, hvhit⟩ := fillE_spec _ _ _ hgGv t2
    (List.replicate (rootBnds a.lo a.up a.msk a.ref).length 0) 0 hGm hseq (by simp)
  obtain ⟨hslen, -, hshit⟩ := fillE_spec _ _ _ hgGs t2
    (List.replicate (rootBnds a.lo a.up a.msk a.ref).length 0) 0 hGm hseq (by simp)
  refine ⟨?_, ?_, ?_, ?_⟩
  · rw [hv, hvlen, List.length_replicate, hFlen]
  · rw [hs, hslen, List.length_replicate, hFlen]
  · intro j hj
    rw [hv]
    exact hvhit j (Nat.zero_le j) (by rw [hFlen]; exact hj)
  · intro j hj
    rw [hs]
    exact hshit j (Nat.zero_le j) (by rw [hFlen]; exact hj)

/-- C10 (amended): after a successful `Model::get`, every row whose stored
mask is set (a free parameter, or a parameter linked to a free root, which
inherits the root's mask and bounds) has `lo ≤ up`, every row with the mask
unset has `lo = up = 0`, and every initial local step size is nonnegative. -/
theorem model_bounds_spec (pcount fuel : ℕ) (blocks : List Block) (m0 m : ModelState)
    (hg : modelGet pcount fuel blocks m0 = (.ok, m)) :
    (∀ p, m.msk.getD p false = true → m.lo.getD p 0 ≤ m.up.getD p 0) ∧
    (∀ p, m.msk.getD p false = false → m.lo.getD p 0 = 0 ∧ m.up.getD p 0 = 0) ∧
    (∀ z ∈ getInitialLocalStepSizes m, 0 ≤ z) := by
  cases hpb : parseBlocks pcount emptyAcc blocks with
  | none =>
    exfalso
    unfold modelGet at hg
    rw [hpb] at hg
    simp only [] at hg
    injection hg with h1 h2
    exact absurd h1 (by decide)
  | some a =>
    obtain ⟨t2, hm, hGE, hseq⟩ := modelGet_ok_table pcount fuel blocks m0 m a hpb hg
    subst hm
    refine ⟨?_, ?_, ?_⟩
    · intro p hmsk
      have hmsk' : (getE t2 p).msk = true := by
        rw [← getD_map_pent Pent.msk false rfl t2 p]
        exact hmsk
      obtain ⟨hind, hlo, hup⟩ := (hGE p).1 hmsk'
      show (t2.map Pent.lo).getD p 0 ≤ (t2.map Pent.up).getD p 0
      rw [getD_map_pent Pent.lo 0 rfl t2 p, getD_map_pent Pent.up 0 rfl t2 p, hlo, hup]
      exact rootBnds_le a.lo a.up a.msk a.ref _ hind
    · intro p hmsk
      have hmsk' : (getE t2 p).msk = false := by
        rw [← getD_map_pent Pent.msk false rfl t2 p]
        exact hmsk
      obtain ⟨hlo, hup, -⟩ := (hGE p).2 hmsk'
      constructor
      · show (t2.map Pent.lo).getD p 0 = 0
        rw [getD_map_pent Pent.lo 0 rfl t2 p, hlo]
      · show (t2.map Pent.up).getD p 0 = 0
        rw [getD_map_pent Pent.up 0 rfl t2 p, hup]
    · intro z hz
      rw [getSteps_commit] at hz
      refine fillE_nonneg _ t2 _ 0 ?_ ?_ z hz
      · intro q hq
        rw [List.eq_of_mem_replicate hq]
      · intro e he hemsk
        obtain ⟨hind, hlo, hup⟩ := goodE_mem _ t2 hGE e he hemsk
        show 0 ≤ 0.5 * (e.up - e.lo)
        have hle := rootBnds_le a.lo a.up a.msk a.ref e.ind hind
        rw [hlo, hup]
        linarith

/-- C8 witness: the one-free-parameter model `wBlk` parses to `wAcc`,
`Model::get` commits `wM`, and the getters return the midpoint and
half-width vectors. -/
theorem model_initial_values_witness :
    parseBlocks 1 emptyAcc [wBlk] = some wAcc ∧
    modelGet 1 0 [wBlk] wM0 = (.ok, wM) ∧
    1 ≤ freeCount wAcc.msk wAcc.ref ∧
    ((getInitialParameterValues wM).length = freeCount wAcc.msk wAcc.ref ∧
     (getInitialLocalStepSizes wM).length = freeCount wAcc.msk wAcc.ref ∧
     (∀ j, j < freeCount wAcc.msk wAcc.ref →
       (getInitialParameterValues wM).getD j 0 =
         0.5 * (rb1 (rootBnds wAcc.lo wAcc.up wAcc.msk wAcc.ref) j +
                rb2 (rootBnds wAcc.lo wAcc.up wAcc.msk wAcc.ref) j)) ∧
     (∀ j, j < freeCount wAcc.msk wAcc.ref →
       (getInitialLocalStepSizes wM).getD j 0 =
         0.5 * (rb2 (rootBnds wAcc.lo wAcc.up wAcc.msk wAcc.ref) j -
                rb1 (rootBnds wAcc.lo wAcc.up wAcc.msk wAcc.ref) j))) :=
  ⟨by decide, by decide, by decide,
    model_initial_values 1 0 [wBlk] wM0 wM wAcc (by decide) (by decide) (by decide)⟩

/-- C8 counterexample: a model whose only parameter is pinned has no free,
unlinked parameters, yet both getters return vectors of length
`ind.max() + 1 = 1`, so the length claim fails without the nonemptiness
proviso. -/
theorem model_initial_values_counterexample :
    parseBlocks 1 emptyAcc [pBlk] = some pAcc ∧
    modelGet 1 0 [pBlk] wM0 = (.ok, pM) ∧
    freeCount pAcc.msk pAcc.ref = 0 ∧
    (getInitialParameterValues pM).length = 1 ∧
    (getInitialLocalStepSizes pM).length = 1 := by decide

/-- C10 witness: the bound invariants hold for the committed state of the
one-free-parameter model. -/
theorem model_bounds_spec_witness :
    modelGet 1 0 [wBlk] wM0 = (.ok, wM) ∧
    ((∀ p, wM.msk.getD p false = true → wM.lo.getD p 0 ≤ wM.up.getD p 0) ∧
     (∀ p, wM.msk.getD p false = false → wM.lo.getD p 0 = 0 ∧ wM.up.getD p 0 = 0) ∧
     (∀ z ∈ getInitialLocalStepSizes wM, 0 ≤ z)) :=
  ⟨by decide, model_bounds_spec 1 0 [wBlk] wM0 wM (by decide)⟩

/-- C10 counterexample: the parameter at position 2 is linked (`ref` is id
10), yet after the successful `Model::get` its stored bounds are those of
its free root, 1 and 3, not zero. -/
theorem model_bounds_counterexample :
    parseBlocks 1 emptyAcc [xBlk] = some xAcc ∧
    xAcc.ref.getD 2 none = some 10 ∧
    modelGet 1 2 [xBlk] wM0 = (.ok, xM) ∧
    xM.lo.getD 2 0 = 1 ∧ xM.up.getD 2 0 = 3 := by decide

end Especia
